import Mathlib

/-!
MMU simulator: TLB, page table and FIFO frame replacement.

A shallow embedding of `src/main.cpp` (classes `TLB` and `MMU`) together with
the invariants and functional properties of the translation path.

Conventions of the embedding:
* one-bit bit-fields are `Bool`, wider unsigned integers are `Nat` with an
  explicit `%` where the source truncates, `int32_t` is `Int`;
* `std::vector` is `List`; an unchecked `v[i]` read is `List.getD`, an unchecked
  store is `List.set`;
* every `cout` line becomes one `TraceRec`, and each member function returns
  the new object state, its C++ return value and the records it printed.
-/

namespace MMUSim

/-! ## Machine architecture -/

abbrev maxPhysicalPages : Nat := 8
abbrev totalSupportedPages : Nat := 32
abbrev PAGE_BITS : Nat := 11
abbrev PAGE_SIZE : Nat := 2 ^ PAGE_BITS
abbrev PFN_BITS : Nat := 3
abbrev VPN_BITS : Nat := 5

/-- Page table entry (`struct PTE`): five one-bit flags and a `PFN_BITS`-wide frame number. -/
structure PTE where
  dirty : Bool
  referenced : Bool
  present : Bool
  valid : Bool
  rw : Bool
  pfn : Nat
deriving DecidableEq

instance : Inhabited PTE := ⟨⟨false, false, false, false, false, 0⟩⟩

/-- The union `VRT_Address`: one 16-bit `value`, read either whole or through
the bit-fields `offset` (low `PAGE_BITS` bits) and `vpn` (next `VPN_BITS` bits). -/
structure VRT_Address where
  value : Nat
  value_lt : value < 2 ^ 16

/-- Bit-field `virtual_address.offset`: the low `PAGE_BITS` bits of `value`. -/
def VRT_Address.offset (a : VRT_Address) : Nat := a.value % PAGE_SIZE

/-- Bit-field `virtual_address.vpn`: the `VPN_BITS` bits of `value` above the offset. -/
def VRT_Address.vpn (a : VRT_Address) : Nat := a.value / PAGE_SIZE % 2 ^ VPN_BITS

/-- The assignment `addrVrt.value = addressInput` for a `u_int16_t` argument:
an integer beyond 16 bits is reduced modulo `2 ^ 16` on the way in. -/
def VRT_Address.ofValue (addressInput : Nat) : VRT_Address :=
  { value := addressInput % 2 ^ 16
    value_lt := Nat.mod_lt _ (by decide) }

/-- TLB row (`struct PMME`). -/
structure PMME where
  in_use : Bool
  VPN : Nat
  PFN : Nat
deriving DecidableEq

instance : Inhabited PMME := ⟨⟨false, 0, 0⟩⟩

/-- Annotation of a successful write translation. -/
inductive WriteNote where
  | newlyDirty
  | repeatWrite
deriving DecidableEq

/-- The annotation table `dirtyOrWrite` of `writeVA`, indexed by the dirty bit. -/
def WriteNote.ofDirty (d : Bool) : WriteNote :=
  if d then WriteNote.repeatWrite else WriteNote.newlyDirty

/-- Structured form of every line the translation path prints. -/
inductive TraceRec where
  /-- The line `Read <addr>`. -/
  | cmdRead (addr : Nat)
  /-- The line `Write <addr>`. -/
  | cmdWrite (addr : Nat)
  /-- The line `VPN: v VA: a SUCCESSFUL TRANSLATION TO PFN: f [NEWLY DIRTY | REPEAT WRITE]`. -/
  | success (vpn va pfn : Nat) (note : Option WriteNote)
  /-- The line `VPN: v VA: a PAGE FAULT`. -/
  | pageFault (vpn va : Nat)
  /-- The line `VPN: w SELECTED TO EJECT [DIRTY]`. -/
  | eject (vpn : Int) (dirty : Bool)
  /-- The line `VPN: w WRITING BACK`. -/
  | writeBack (vpn : Int)
  /-- The line `VPN: v VA: o ASSIGNING TO PFN: f`. -/
  | assign (vpn off pfn : Nat)
  /-- The line `VPN: v VA: o SWAPPING IN TO PFN: f [NEWLY DIRTY]`. -/
  | swapIn (vpn off pfn : Nat) (newlyDirty : Bool)
deriving DecidableEq

/-! ## class TLB -/

structure TLB where
  buffer : List PMME
  cacheError : Bool
  bufferIterator : Nat
deriving DecidableEq

/-- Constructor `TLB::TLB()`: eight value-initialised rows, cursor 0. -/
def TLB.init : TLB :=
  { buffer := List.replicate maxPhysicalPages default
    cacheError := false
    bufferIterator := 0 }

/-- Method `TLB::getCacheError`: returns the flag and clears it. -/
def TLB.getCacheError (t : TLB) : TLB × Bool :=
  ({ t with cacheError := false }, t.cacheError)

/-- Method `TLB::fetchPageBuffer`: first row (in index order) that is in use and holds
the page; on a miss sets `cacheError` and returns 0. -/
def TLB.fetchPageBuffer (t : TLB) (pageNumberInput : Nat) : TLB × Nat :=
  match t.buffer.find? (fun e => e.VPN == pageNumberInput && e.in_use) with
  | some e => (t, e.PFN)
  | none => ({ t with cacheError := true }, 0)

/-- Method `TLB::writeToBuffer`: overwrite the page of the first in-use row holding the
frame, else fill the row under `bufferIterator` and advance it (wrapping).
`PFN` is a `uint32_t` field receiving a `size_t`. -/
def TLB.writeToBuffer (t : TLB) (frameNumberInput newPageNumberInput : Nat) : TLB :=
  match t.buffer.findIdx? (fun e => e.PFN == frameNumberInput && e.in_use) with
  | some i =>
    { t with buffer := t.buffer.set i { t.buffer.getD i default with VPN := newPageNumberInput } }
  | none =>
    let row : PMME := { in_use := true, VPN := newPageNumberInput, PFN := frameNumberInput % 2 ^ 32 }
    let next := t.bufferIterator + 1
    { t with
      buffer := t.buffer.set t.bufferIterator row
      bufferIterator := if next ≥ maxPhysicalPages then 0 else next }

/-! ## class MMU -/

structure MMU where
  physicalMem : List Int
  pageTable : List PTE
  tlBuffer : TLB
  physicalMemIterator : Nat
  pagingFlag : Bool
deriving DecidableEq

/-- Constructor `MMU::MMU()`: empty frame pool, zeroed page table, fresh TLB, cursor 0. -/
def MMU.init : MMU :=
  { physicalMem := List.replicate maxPhysicalPages (-1)
    pageTable := List.replicate totalSupportedPages default
    tlBuffer := TLB.init
    physicalMemIterator := 0
    pagingFlag := false }

/-- Method `MMU::swapPage`: evict the page under the FIFO cursor (writing it back when
dirty), install the incoming page there, update the TLB, advance the cursor.
Returns the frame number. -/
def MMU.swapPage (m : MMU) (pageNumberInput : VRT_Address) (write : Bool) :
    MMU × Nat × List TraceRec :=
  let swappedPage : Int := m.physicalMem.getD m.physicalMemIterator 0
  let swappingInPage : Nat := pageNumberInput.vpn
  let frameNumber : Nat := m.physicalMemIterator
  let evicted : List PTE × List TraceRec :=
    if swappedPage ≠ -1 then
      let old := m.pageTable.getD swappedPage.toNat default
      (m.pageTable.set swappedPage.toNat { old with dirty := false, present := false, pfn := 0 },
        TraceRec.eject swappedPage old.dirty ::
          (if old.dirty then [TraceRec.writeBack swappedPage] else []))
    else (m.pageTable, [])
  let physicalMem := m.physicalMem.set m.physicalMemIterator (swappingInPage : Int)
  let pageTable := evicted.1.set swappingInPage
    { evicted.1.getD swappingInPage default with
      present := true, pfn := m.physicalMemIterator % 2 ^ PFN_BITS }
  let tlBuffer := m.tlBuffer.writeToBuffer m.physicalMemIterator swappingInPage
  let out := evicted.2 ++
    [TraceRec.assign pageNumberInput.vpn pageNumberInput.offset m.physicalMemIterator,
     TraceRec.swapIn pageNumberInput.vpn pageNumberInput.offset m.physicalMemIterator write]
  let next := m.physicalMemIterator + 1
  ({ m with
      physicalMem := physicalMem
      pageTable := pageTable
      tlBuffer := tlBuffer
      physicalMemIterator := if next ≥ maxPhysicalPages then 0 else next },
    frameNumber, out)

/-- Method `MMU::translateVA`: range guard, page-table hit, or page fault. -/
def MMU.translateVA (m : MMU) (pageNumberInput : VRT_Address) (write : Bool) :
    MMU × Nat × List TraceRec :=
  if pageNumberInput.vpn ≥ m.pageTable.length then
    ({ m with pagingFlag := true }, 0, [])
  else if (m.pageTable.getD pageNumberInput.vpn default).present then
    (m, (m.pageTable.getD pageNumberInput.vpn default).pfn, [])
  else
    let r := m.swapPage pageNumberInput write
    ({ r.1 with pagingFlag := true }, r.2.1,
      TraceRec.pageFault pageNumberInput.vpn pageNumberInput.value :: r.2.2)

/-- Method `MMU::readVA`. -/
def MMU.readVA (m : MMU) (addressInput : Nat) : MMU × List TraceRec :=
  let addrVrt := VRT_Address.ofValue addressInput
  let fetched := m.tlBuffer.fetchPageBuffer addrVrt.vpn
  let checked := fetched.1.getCacheError
  let m1 : MMU := { m with tlBuffer := checked.1 }
  if !checked.2 then
    (m1, [TraceRec.cmdRead addrVrt.value,
          TraceRec.success addrVrt.vpn addrVrt.value fetched.2 none])
  else
    let r := m1.translateVA addrVrt false
    let readBackTranslation := !r.1.pagingFlag
    let m2 : MMU := if r.1.pagingFlag then { r.1 with pagingFlag := false } else r.1
    (m2, TraceRec.cmdRead addrVrt.value :: r.2.2 ++
      (if readBackTranslation then
        [TraceRec.success addrVrt.vpn addrVrt.offset r.2.1 none]
       else []))

/-- The store `pageTable[vpn].dirty = dirtySet`. -/
def setDirty (pageTable : List PTE) (vpn : Nat) : List PTE :=
  pageTable.set vpn { pageTable.getD vpn default with dirty := true }

/-- Method `MMU::writeVA`. -/
def MMU.writeVA (m : MMU) (addressInput : Nat) : MMU × List TraceRec :=
  let addrVrt := VRT_Address.ofValue addressInput
  let fetched := m.tlBuffer.fetchPageBuffer addrVrt.vpn
  let checked := fetched.1.getCacheError
  let m1 : MMU := { m with tlBuffer := checked.1 }
  if !checked.2 then
    ({ m1 with pageTable := setDirty m1.pageTable addrVrt.vpn },
      [TraceRec.cmdWrite addrVrt.value,
       TraceRec.success addrVrt.vpn addrVrt.value fetched.2
         (some (WriteNote.ofDirty (m1.pageTable.getD addrVrt.vpn default).dirty))])
  else
    let r := m1.translateVA addrVrt true
    let readBackTranslation := !r.1.pagingFlag
    let m2 : MMU := if r.1.pagingFlag then { r.1 with pagingFlag := false } else r.1
    ({ m2 with pageTable := setDirty m2.pageTable addrVrt.vpn },
      TraceRec.cmdWrite addrVrt.value :: r.2.2 ++
      (if readBackTranslation then
        [TraceRec.success addrVrt.vpn addrVrt.offset r.2.1
          (some (WriteNote.ofDirty (m2.pageTable.getD addrVrt.vpn default).dirty))]
       else []))

/-! ## Access sequences -/

/-- A decoded memory access command. -/
inductive Op where
  | read (addr : Nat)
  | write (addr : Nat)
deriving DecidableEq

/-- Dispatch of one access, as in `pagingProgramLoop`. -/
def MMU.step (m : MMU) : Op → MMU × List TraceRec
  | Op.read a => m.readVA a
  | Op.write a => m.writeVA a

/-- State after a sequence of accesses. -/
def MMU.run (m : MMU) : List Op → MMU
  | [] => m
  | op :: ops => (m.step op).1.run ops


/-! ## Specification vocabulary: reading the three tables -/

/-- Frame pool slot `physicalMem[i]`. -/
def MMU.frame (m : MMU) (i : Nat) : Int := m.physicalMem.getD i 0

/-- Page table entry `pageTable[v]`. -/
def MMU.pte (m : MMU) (v : Nat) : PTE := m.pageTable.getD v default

/-- TLB row `tlBuffer.buffer[i]`. -/
def MMU.row (m : MMU) (i : Nat) : PMME := m.tlBuffer.buffer.getD i default

/-- Outcome of a TLB probe as `readVA`/`writeVA` perform it: `fetchPageBuffer`
followed by `getCacheError`; `none` is a miss, `some f` a hit returning `f`. -/
def TLB.lookup (t : TLB) (q : Nat) : Option Nat :=
  let fetched := t.fetchPageBuffer q
  if fetched.1.getCacheError.2 then none else some fetched.2

/-- Number of page table entries with the present bit set, counted the way
`MMU::readPT` walks the table: by index, over `pageTable.size()` entries. -/
def MMU.presentCount (m : MMU) : Nat :=
  ((List.range m.pageTable.length).filter (fun v => (m.pte v).present)).length

/-! ## Reading a trace -/

/-- Whether the trace of an access contains a `PAGE FAULT` line. -/
def isFault (tr : List TraceRec) : Bool :=
  tr.any (fun r => match r with
    | TraceRec.pageFault _ _ => true
    | _ => false)

/-- Whether the trace of an access contains a `SUCCESSFUL TRANSLATION` line. -/
def isSuccess (tr : List TraceRec) : Bool :=
  tr.any (fun r => match r with
    | TraceRec.success _ _ _ _ => true
    | _ => false)

/-- The pages named by the `WRITING BACK` lines of a trace, in order. -/
def writeBacks (tr : List TraceRec) : List Int :=
  tr.filterMap (fun r => match r with
    | TraceRec.writeBack w => some w
    | _ => none)

/-- The pages named by the `SELECTED TO EJECT` lines of a trace, in order. -/
def ejected (tr : List TraceRec) : List Int :=
  tr.filterMap (fun r => match r with
    | TraceRec.eject w _ => some w
    | _ => none)

/-- The (page, frame) pairs of the `ASSIGNING TO PFN` lines of a trace, in order. -/
def assigned (tr : List TraceRec) : List (Nat × Nat) :=
  tr.filterMap (fun r => match r with
    | TraceRec.assign v _ f => some (v, f)
    | _ => none)

/-- The frame numbers a trace reports: those of its `SUCCESSFUL TRANSLATION`
and `ASSIGNING TO PFN` lines, in order. -/
def reportedFrames (tr : List TraceRec) : List Nat :=
  tr.filterMap (fun r => match r with
    | TraceRec.success _ _ f _ => some f
    | TraceRec.assign _ _ f => some f
    | _ => none)

/-- What one page fault did, as read off the trace of the access. -/
structure FaultEv where
  vpn : Nat
  frame : Nat
  evicted : Option Int
deriving DecidableEq

/-- The page fault recorded in the trace of one access, if any: the page and
frame of its `ASSIGNING TO PFN` line and the page of its `SELECTED TO EJECT`
line when there is one. -/
def faultOf (tr : List TraceRec) : Option FaultEv :=
  if isFault tr then
    (assigned tr).head?.map (fun p => { vpn := p.1, frame := p.2, evicted := (ejected tr).head? })
  else none

/-- The page faults of a sequence of accesses, in order of occurrence. -/
def MMU.faultLog (m : MMU) : List Op → List FaultEv
  | [] => []
  | op :: ops => (faultOf (m.step op).2).toList ++ (m.step op).1.faultLog ops

/-- The address of an access. -/
def Op.addr : Op → Nat
  | Op.read a => a
  | Op.write a => a

/-- The page an access refers to. -/
def Op.vpn (op : Op) : Nat := (VRT_Address.ofValue op.addr).vpn

/-- Whether an access is a write. -/
def Op.isWrite : Op → Bool
  | Op.read _ => false
  | Op.write _ => true

/-- The first line an access prints, `Read <addr>` or `Write <addr>`. -/
def Op.cmd : Op → TraceRec
  | Op.read a => TraceRec.cmdRead (VRT_Address.ofValue a).value
  | Op.write a => TraceRec.cmdWrite (VRT_Address.ofValue a).value

/-- The lines `swapPage` prints for the page it evicts from the slot under the cursor. -/
def MMU.evictLines (m : MMU) : List TraceRec :=
  if m.frame m.physicalMemIterator ≠ -1 then
    TraceRec.eject (m.frame m.physicalMemIterator)
        (m.pte (m.frame m.physicalMemIterator).toNat).dirty ::
      (if (m.pte (m.frame m.physicalMemIterator).toNat).dirty then
        [TraceRec.writeBack (m.frame m.physicalMemIterator)] else [])
  else []

/-- The state invariant maintained by `readVA` and `writeVA`. -/
structure Inv (m : MMU) : Prop where
  len_pm : m.physicalMem.length = 8
  len_pt : m.pageTable.length = 32
  len_tb : m.tlBuffer.buffer.length = 8
  it_lt : m.physicalMemIterator < 8
  bi_lt : m.tlBuffer.bufferIterator < 8
  noFlag : m.pagingFlag = false
  noErr : m.tlBuffer.cacheError = false
  fill : (∀ i, i < 8 → m.frame i ≠ -1) ∨
    (m.tlBuffer.bufferIterator = m.physicalMemIterator ∧
      ∀ i, i < 8 → (m.frame i ≠ -1 ↔ i < m.physicalMemIterator))
  range : ∀ i, i < 8 → -1 ≤ m.frame i ∧ m.frame i < 32
  tlb_use : ∀ i, i < 8 → ((m.row i).in_use = true ↔ m.frame i ≠ -1)
  tlb_row : ∀ i, i < 8 → (m.row i).in_use = true →
    (m.row i).PFN = i ∧ ((m.row i).VPN : Int) = m.frame i
  frame_pt : ∀ i, i < 8 → m.frame i ≠ -1 →
    (m.pte (m.frame i).toNat).present = true ∧ (m.pte (m.frame i).toNat).pfn = i
  pt_frame : ∀ v, v < 32 → (m.pte v).present = true →
    (m.pte v).pfn < 8 ∧ m.frame (m.pte v).pfn = (v : Int)
  dirty_present : ∀ v, v < 32 → (m.pte v).dirty = true → (m.pte v).present = true

/-! ## Post-states, fault logs and reachability -/

/-- State after an access to a present page. -/
def MMU.hitPost (m : MMU) (op : Op) : MMU :=
  if op.isWrite then { m with pageTable := setDirty m.pageTable op.vpn } else m

/-- State after an access to an absent page. -/
def MMU.faultPost (m : MMU) (op : Op) : MMU :=
  if op.isWrite then
    { (m.swapPage (VRT_Address.ofValue op.addr) true).1 with
      pageTable := setDirty (m.swapPage (VRT_Address.ofValue op.addr) true).1.pageTable op.vpn }
  else (m.swapPage (VRT_Address.ofValue op.addr) false).1

/-- How the frame pool and the FIFO cursor relate to the faults logged so far. -/
structure FifoInv (m : MMU) (L : List FaultEv) : Prop where
  cursor : m.physicalMemIterator = L.length % 8
  recent : ∀ j e, L[j]? = some e → L.length ≤ j + 8 → m.frame (j % 8) = (e.vpn : Int)
  empty : ∀ i, i < 8 → L.length ≤ i → m.frame i = -1

/-- FIFO order of a fault log: fault `k` uses frame `k % 8`, the first eight
faults evict nothing, every later one evicts the page installed eight faults earlier. -/
def FifoLog (L : List FaultEv) : Prop :=
  ∀ k e, L[k]? = some e →
    e.frame = k % 8 ∧ (k < 8 → e.evicted = none) ∧
    (8 ≤ k → ∃ e0, L[k - 8]? = some e0 ∧ e.evicted = some (e0.vpn : Int))

/-- A state is reachable when some sequence of accesses leads to it from the initial state. -/
def Reachable (m : MMU) : Prop := ∃ ops : List Op, MMU.init.run ops = m

/-- Twelve accesses with ten page faults and two TLB hits in between. -/
def fifoDemo : List Op :=
  [Op.write 0, Op.read 2048, Op.read 100, Op.read 4096, Op.write 6144, Op.write 2049,
   Op.read 8192, Op.read 10240, Op.read 12288, Op.read 14336, Op.read 16384, Op.read 0]

/-- Writes to pages 0..7: fills the eight frames with dirty pages. -/
def fullDirty : List Op :=
  [Op.write 0, Op.write 2048, Op.write 4096, Op.write 6144,
   Op.write 8192, Op.write 10240, Op.write 12288, Op.write 14336]

/-- Reads of pages 0..7: fills the eight frames with clean pages. -/
def fullClean : List Op :=
  [Op.read 0, Op.read 2048, Op.read 4096, Op.read 6144,
   Op.read 8192, Op.read 10240, Op.read 12288, Op.read 14336]

/-! ## Counting and annotations in a trace -/

/-- Number of `PAGE FAULT` lines in a trace. -/
def pageFaultCount (tr : List TraceRec) : Nat :=
  tr.countP (fun r => match r with
    | TraceRec.pageFault _ _ => true
    | _ => false)

/-- Number of `SUCCESSFUL TRANSLATION` lines in a trace. -/
def successCount (tr : List TraceRec) : Nat :=
  tr.countP (fun r => match r with
    | TraceRec.success _ _ _ _ => true
    | _ => false)

/-- The write annotations a trace prints, in order: the `NEWLY DIRTY` or
`REPEAT WRITE` suffix of a success line and the `NEWLY DIRTY` suffix of a
swap-in line. -/
def annotations (tr : List TraceRec) : List WriteNote :=
  tr.filterMap (fun r => match r with
    | TraceRec.success _ _ _ (some n) => some n
    | TraceRec.swapIn _ _ _ true => some WriteNote.newlyDirty
    | _ => none)

/-- The traces of a sequence of accesses, one per access. -/
def MMU.traces (m : MMU) : List Op → List (List TraceRec)
  | [] => []
  | op :: ops => (m.step op).2 :: (m.step op).1.traces ops

/-! ## TLB vocabulary -/

/-- TLB row `buffer[i]`. -/
def TLB.row (t : TLB) (i : Nat) : PMME := t.buffer.getD i default

/-- A TLB built through the public methods only: one install, then a lookup
of another page that misses and leaves `cacheError` raised. -/
def staleTLB : TLB := ((TLB.init.writeToBuffer 5 3).fetchPageBuffer 9).1

/-- A TLB with one installed row and the error flag clear. -/
def oneRowTLB : TLB := TLB.init.writeToBuffer 5 3

/-- One address in each of the nine pages 0..8. -/
def ninePages : List Nat := [5, 2048, 4100, 6144, 8192, 10240, 12288, 14336, 16389]

/-! ## List helpers -/

theorem getD_set_self {α : Type} (l : List α) (i : Nat) (a d : α) (h : i < l.length) :
    (l.set i a).getD i d = a := by
  simp [List.getD_eq_getElem?_getD, List.getElem?_set, h]

theorem getD_set_other {α : Type} (l : List α) (i j : Nat) (a d : α) (h : i ≠ j) :
    (l.set i a).getD j d = l.getD j d := by
  simp [List.getD_eq_getElem?_getD, List.getElem?_set, h]

theorem find?_some_getD {α : Type} (p : α → Bool) (d : α) :
    ∀ (l : List α) (e : α), l.find? p = some e →
      ∃ i, i < l.length ∧ l.getD i d = e ∧ p e = true
  | [], e, h => by simp at h
  | x :: xs, e, h => by
    by_cases hx : p x = true
    · rw [List.find?_cons_of_pos _ hx] at h
      cases h
      exact ⟨0, by simp, by simp, hx⟩
    · rw [List.find?_cons_of_neg _ hx] at h
      obtain ⟨i, hi, hg, hp⟩ := find?_some_getD p d xs e h
      exact ⟨i + 1, by simpa using hi, by simpa using hg, hp⟩

theorem find?_none_getD {α : Type} (p : α → Bool) (d : α) (l : List α)
    (h : l.find? p = none) (i : Nat) (hi : i < l.length) : p (l.getD i d) = false := by
  rw [List.find?_eq_none] at h
  have hmem : l.getD i d ∈ l := by
    rw [List.getD_eq_getElem _ _ hi]
    exact List.getElem_mem hi
  simpa using h _ hmem

theorem findIdx?_some_getD {α : Type} (p : α → Bool) (d : α) (l : List α) (i : Nat)
    (h : l.findIdx? p = some i) : i < l.length ∧ p (l.getD i d) = true := by
  rw [List.findIdx?_eq_some_iff_getElem] at h
  obtain ⟨hi, hp, _⟩ := h
  exact ⟨hi, by rw [List.getD_eq_getElem _ _ hi]; exact hp⟩

theorem findIdx?_none_getD {α : Type} (p : α → Bool) (d : α) (l : List α)
    (h : l.findIdx? p = none) (i : Nat) (hi : i < l.length) : p (l.getD i d) = false := by
  rw [List.findIdx?_eq_none_iff] at h
  have hmem : l.getD i d ∈ l := by
    rw [List.getD_eq_getElem _ _ hi]
    exact List.getElem_mem hi
  exact h _ hmem

/-! ## The initial state -/

theorem Inv_init : Inv MMU.init where
  len_pm := by decide
  len_pt := by decide
  len_tb := by decide
  it_lt := by decide
  bi_lt := by decide
  noFlag := rfl
  noErr := rfl
  fill := Or.inr (by decide)
  range := by decide
  tlb_use := by decide
  tlb_row := by decide
  frame_pt := by decide
  pt_frame := by decide
  dirty_present := by decide


/-! ## The TLB probe under the invariant -/

theorem vpn_lt (a : Nat) : (VRT_Address.ofValue a).vpn < 32 := by
  exact Nat.mod_lt _ (by decide)

theorem fetch_of_present {m : MMU} (hm : Inv m) {v : Nat} (hv : v < 32)
    (hp : (m.pte v).present = true) :
    m.tlBuffer.fetchPageBuffer v = (m.tlBuffer, (m.pte v).pfn) := by
  obtain ⟨hlt, hfr⟩ := hm.pt_frame v hv hp
  unfold TLB.fetchPageBuffer
  cases h : m.tlBuffer.buffer.find? (fun e => e.VPN == v && e.in_use) with
  | some e =>
    obtain ⟨i, hi, hg, hpe⟩ := find?_some_getD _ default _ _ h
    rw [hm.len_tb] at hi
    have hrow : m.row i = e := hg
    simp only [Bool.and_eq_true, beq_iff_eq] at hpe
    have huse : (m.row i).in_use = true := by rw [hrow]; exact hpe.2
    obtain ⟨h1, h2⟩ := hm.tlb_row i hi huse
    rw [hrow] at h1 h2
    have hfi : m.frame i = (v : Int) := by rw [← h2, hpe.1]
    have hne : m.frame i ≠ -1 := by omega
    have h3 := (hm.frame_pt i hi hne).2
    rw [hfi] at h3
    simp only [Int.toNat_ofNat] at h3
    simp only [h1, h3]
  | none =>
    exfalso
    have h0 := find?_none_getD _ default _ h (m.pte v).pfn (by rw [hm.len_tb]; exact hlt)
    have hne : m.frame (m.pte v).pfn ≠ -1 := by omega
    have huse := (hm.tlb_use _ hlt).2 hne
    obtain ⟨_, h2⟩ := hm.tlb_row _ hlt huse
    have hv2 : (m.row (m.pte v).pfn).VPN = v := by
      have : ((m.row (m.pte v).pfn).VPN : Int) = (v : Int) := by rw [h2, hfr]
      exact_mod_cast this
    have hrow : m.tlBuffer.buffer.getD (m.pte v).pfn default = m.row (m.pte v).pfn := rfl
    rw [hrow] at h0
    simp [hv2, huse] at h0

theorem fetch_of_absent {m : MMU} (hm : Inv m) {v : Nat}
    (hp : (m.pte v).present = false) :
    m.tlBuffer.fetchPageBuffer v = ({ m.tlBuffer with cacheError := true }, 0) := by
  unfold TLB.fetchPageBuffer
  cases h : m.tlBuffer.buffer.find? (fun e => e.VPN == v && e.in_use) with
  | none => rfl
  | some e =>
    exfalso
    obtain ⟨i, hi, hg, hpe⟩ := find?_some_getD _ default _ _ h
    rw [hm.len_tb] at hi
    have hrow : m.row i = e := hg
    simp only [Bool.and_eq_true, beq_iff_eq] at hpe
    have huse : (m.row i).in_use = true := by rw [hrow]; exact hpe.2
    obtain ⟨_, h2⟩ := hm.tlb_row i hi huse
    rw [hrow] at h2
    have hfi : m.frame i = (v : Int) := by rw [← h2, hpe.1]
    have hne : m.frame i ≠ -1 := by omega
    have h3 := (hm.frame_pt i hi hne).1
    rw [hfi] at h3
    simp only [Int.toNat_ofNat] at h3
    rw [hp] at h3
    exact Bool.false_ne_true h3

/-- Under the invariant, `writeToBuffer` for the frame under the FIFO cursor
rewrites exactly the row of that index. -/
theorem writeToBuffer_cursor {m : MMU} (hm : Inv m) (v : Nat) :
    m.tlBuffer.writeToBuffer m.physicalMemIterator v =
      { buffer := m.tlBuffer.buffer.set m.physicalMemIterator
          { in_use := true, VPN := v, PFN := m.physicalMemIterator }
        cacheError := m.tlBuffer.cacheError
        bufferIterator :=
          if m.frame m.physicalMemIterator = -1 then
            (if m.physicalMemIterator + 1 ≥ 8 then 0 else m.physicalMemIterator + 1)
          else m.tlBuffer.bufferIterator } := by
  have hit := hm.it_lt
  unfold TLB.writeToBuffer
  cases h : m.tlBuffer.buffer.findIdx?
      (fun e => e.PFN == m.physicalMemIterator && e.in_use) with
  | some i =>
    obtain ⟨hi, hpe⟩ := findIdx?_some_getD _ default _ _ h
    rw [hm.len_tb] at hi
    have hrow : m.tlBuffer.buffer.getD i default = m.row i := rfl
    rw [hrow] at hpe
    simp only [Bool.and_eq_true, beq_iff_eq] at hpe
    obtain ⟨h1, _⟩ := hm.tlb_row i hi hpe.2
    have hii : i = m.physicalMemIterator := by rw [← h1, hpe.1]
    subst hii
    have hne := (hm.tlb_use _ hi).1 hpe.2
    simp only [hrow, hne, if_false]
    have : ({ m.row m.physicalMemIterator with VPN := v } : PMME) =
        { in_use := true, VPN := v, PFN := m.physicalMemIterator } := by
      rw [PMME.mk.injEq]
      exact ⟨hpe.2, rfl, h1⟩
    rw [this]
  | none =>
    have h0 := findIdx?_none_getD _ default _ h m.physicalMemIterator
      (by rw [hm.len_tb]; exact hit)
    have hrow : m.tlBuffer.buffer.getD m.physicalMemIterator default =
        m.row m.physicalMemIterator := rfl
    rw [hrow] at h0
    have hnu : (m.row m.physicalMemIterator).in_use = false := by
      cases hu : (m.row m.physicalMemIterator).in_use with
      | false => rfl
      | true =>
        have := (hm.tlb_row _ hit hu).1
        simp [this, hu] at h0
    have hfr : m.frame m.physicalMemIterator = -1 := by
      by_contra hne
      have := (hm.tlb_use _ hit).2 hne
      rw [hnu] at this
      exact Bool.false_ne_true this
    have hbi : m.tlBuffer.bufferIterator = m.physicalMemIterator := by
      rcases hm.fill with hall | ⟨hb, _⟩
      · exact absurd hfr (hall _ hit)
      · exact hb
    have hmod : m.physicalMemIterator % 2 ^ 32 = m.physicalMemIterator := by omega
    simp only [hfr, if_true, hbi, hmod, maxPhysicalPages]


/-! ## Pointwise description of `swapPage` -/

theorem swapPage_frame (m : MMU) (a : VRT_Address) (w : Bool) (i : Nat)
    (h : m.physicalMemIterator < m.physicalMem.length) :
    (m.swapPage a w).1.frame i =
      if i = m.physicalMemIterator then (a.vpn : Int) else m.frame i := by
  simp only [MMU.swapPage, MMU.frame]
  split
  · next hi => subst hi; exact getD_set_self _ _ _ _ h
  · next hi => exact getD_set_other _ _ _ _ _ (fun h => hi h.symm)

theorem swapPage_cursor (m : MMU) (a : VRT_Address) (w : Bool) :
    (m.swapPage a w).1.physicalMemIterator =
      if m.physicalMemIterator + 1 ≥ 8 then 0 else m.physicalMemIterator + 1 := rfl

theorem swapPage_flag (m : MMU) (a : VRT_Address) (w : Bool) :
    (m.swapPage a w).1.pagingFlag = m.pagingFlag := rfl

theorem swapPage_ret (m : MMU) (a : VRT_Address) (w : Bool) :
    (m.swapPage a w).2.1 = m.physicalMemIterator := rfl

theorem swapPage_tlb (m : MMU) (a : VRT_Address) (w : Bool) :
    (m.swapPage a w).1.tlBuffer = m.tlBuffer.writeToBuffer m.physicalMemIterator a.vpn := rfl

theorem swapPage_len_pm (m : MMU) (a : VRT_Address) (w : Bool) :
    (m.swapPage a w).1.physicalMem.length = m.physicalMem.length := by
  simp [MMU.swapPage]

theorem swapPage_len_pt (m : MMU) (a : VRT_Address) (w : Bool) :
    (m.swapPage a w).1.pageTable.length = m.pageTable.length := by
  simp only [MMU.swapPage]
  split <;> simp

/-- The evicted page differs from the incoming one: the first is present, the second is not. -/
theorem evicted_ne {m : MMU} (hm : Inv m) {v : Nat} (hp : (m.pte v).present = false)
    (hw : m.frame m.physicalMemIterator ≠ -1) :
    (m.frame m.physicalMemIterator).toNat ≠ v := by
  intro h
  have := (hm.frame_pt _ hm.it_lt hw).1
  rw [h, hp] at this
  exact Bool.false_ne_true this

theorem evicted_lt {m : MMU} (hm : Inv m) :
    (m.frame m.physicalMemIterator).toNat < 32 := by
  have := hm.range _ hm.it_lt
  omega

theorem swapPage_pte_new {m : MMU} (hm : Inv m) (a : VRT_Address) (w : Bool)
    (hv : a.vpn < 32) (hp : (m.pte a.vpn).present = false) :
    (m.swapPage a w).1.pte a.vpn =
      { m.pte a.vpn with present := true, pfn := m.physicalMemIterator } := by
  have hit := hm.it_lt
  have hmod : m.physicalMemIterator % 2 ^ PFN_BITS = m.physicalMemIterator := by
    show m.physicalMemIterator % 8 = m.physicalMemIterator
    omega
  simp only [MMU.swapPage, MMU.pte, hmod]
  by_cases hw : m.physicalMem.getD m.physicalMemIterator 0 = -1
  · simp only [hw, ne_eq, not_true_eq_false, if_false]
    rw [getD_set_self _ _ _ _ (by rw [hm.len_pt]; exact hv)]
  · have hne := evicted_ne hm hp hw
    simp only [MMU.frame] at hne
    simp only [ne_eq, hw, not_false_eq_true, if_true]
    rw [getD_set_self _ _ _ _ (by rw [List.length_set, hm.len_pt]; exact hv),
      getD_set_other _ _ _ _ _ hne]

theorem swapPage_pte_evicted {m : MMU} (hm : Inv m) (a : VRT_Address) (w : Bool)
    (hp : (m.pte a.vpn).present = false) (hw : m.frame m.physicalMemIterator ≠ -1) :
    (m.swapPage a w).1.pte (m.frame m.physicalMemIterator).toNat =
      { m.pte (m.frame m.physicalMemIterator).toNat with
        dirty := false, present := false, pfn := 0 } := by
  have hne := evicted_ne hm hp hw
  have hlt := evicted_lt hm
  simp only [MMU.frame] at hne hw hlt
  simp only [MMU.swapPage, MMU.pte, MMU.frame, ne_eq, hw, not_false_eq_true, if_true]
  rw [getD_set_other _ _ _ _ _ (fun h => hne h.symm),
    getD_set_self _ _ _ _ (by rw [hm.len_pt]; exact hlt)]

theorem swapPage_pte_other (m : MMU) (a : VRT_Address) (w : Bool) (u : Nat)
    (hu : u ≠ a.vpn)
    (hu2 : m.frame m.physicalMemIterator = -1 ∨ u ≠ (m.frame m.physicalMemIterator).toNat) :
    (m.swapPage a w).1.pte u = m.pte u := by
  simp only [MMU.frame] at hu2
  simp only [MMU.swapPage, MMU.pte]
  rw [getD_set_other _ _ _ _ _ (fun h => hu h.symm)]
  by_cases hw : m.physicalMem.getD m.physicalMemIterator 0 = -1
  · simp only [hw, ne_eq, not_true_eq_false, if_false]
  · simp only [ne_eq, hw, not_false_eq_true, if_true]
    rcases hu2 with h | h
    · exact absurd h hw
    · rw [getD_set_other _ _ _ _ _ (fun h2 => h h2.symm)]

theorem swapPage_row {m : MMU} (hm : Inv m) (a : VRT_Address) (w : Bool) (i : Nat) :
    (m.swapPage a w).1.row i =
      if i = m.physicalMemIterator then
        { in_use := true, VPN := a.vpn, PFN := m.physicalMemIterator }
      else m.row i := by
  simp only [MMU.row, swapPage_tlb, writeToBuffer_cursor hm]
  split
  · next hi =>
    subst hi
    exact getD_set_self _ _ _ _ (by rw [hm.len_tb]; exact hm.it_lt)
  · next hi => exact getD_set_other _ _ _ _ _ (fun h => hi h.symm)


/-! ## The invariant is preserved by a page fault -/

theorem Inv_swapPage {m : MMU} (hm : Inv m) (a : VRT_Address) (w : Bool)
    (hv : a.vpn < 32) (hp : (m.pte a.vpn).present = false) :
    Inv (m.swapPage a w).1 := by
  have hit := hm.it_lt
  have hlen : m.physicalMemIterator < m.physicalMem.length := by rw [hm.len_pm]; exact hit
  have hfr := fun i => swapPage_frame m a w i hlen
  have hrow := fun i => swapPage_row hm a w i
  have hcur := swapPage_cursor m a w
  have hnew := swapPage_pte_new hm a w hv hp
  refine
    { len_pm := by rw [swapPage_len_pm]; exact hm.len_pm
      len_pt := by rw [swapPage_len_pt]; exact hm.len_pt
      len_tb := ?_
      it_lt := by rw [hcur]; split <;> omega
      bi_lt := ?_
      noFlag := hm.noFlag
      noErr := ?_
      fill := ?_
      range := ?_
      tlb_use := ?_
      tlb_row := ?_
      frame_pt := ?_
      pt_frame := ?_
      dirty_present := ?_ }
  · rw [swapPage_tlb, writeToBuffer_cursor hm]
    simp [hm.len_tb]
  · rw [swapPage_tlb, writeToBuffer_cursor hm]
    have := hm.bi_lt
    simp only
    split <;> [split <;> omega; exact this]
  · rw [swapPage_tlb, writeToBuffer_cursor hm]
    exact hm.noErr
  · rcases hm.fill with hall | ⟨hb, hiff⟩
    · left
      intro i hi
      rw [hfr]
      split
      · omega
      · exact hall i hi
    · have hempty : m.frame m.physicalMemIterator = -1 := by
        by_contra hne
        exact absurd ((hiff _ hit).1 hne) (Nat.lt_irrefl _)
      by_cases h7 : m.physicalMemIterator + 1 ≥ 8
      · left
        intro i hi
        rw [hfr]
        split
        · omega
        · next hne => exact (hiff i hi).2 (by omega)
      · right
        constructor
        · rw [swapPage_tlb, writeToBuffer_cursor hm, hcur]
          simp only [hempty, if_true]
        · intro i hi
          rw [hfr, hcur, if_neg h7]
          split
          · next h => subst h; constructor <;> intro <;> omega
          · next hne =>
            rw [hiff i hi]
            omega
  · intro i hi
    rw [hfr]
    split
    · omega
    · exact hm.range i hi
  · intro i hi
    rw [hfr, hrow]
    split
    · simp only [true_iff]; omega
    · exact hm.tlb_use i hi
  · intro i hi
    rw [hfr, hrow]
    split
    · next h => intro _; exact ⟨h.symm, rfl⟩
    · exact hm.tlb_row i hi
  · intro i hi
    rw [hfr]
    split
    · next h =>
      intro _
      simp only [Int.toNat_ofNat, hnew]
      exact ⟨trivial, h.symm⟩
    · next hne =>
      intro hfi
      obtain ⟨h1, h2⟩ := hm.frame_pt i hi hfi
      have hu : (m.frame i).toNat ≠ a.vpn := by
        intro h
        rw [h, hp] at h1
        exact Bool.false_ne_true h1
      have hu2 : m.frame m.physicalMemIterator = -1 ∨
          (m.frame i).toNat ≠ (m.frame m.physicalMemIterator).toNat := by
        by_cases hw : m.frame m.physicalMemIterator = -1
        · exact Or.inl hw
        · right
          intro h
          have := (hm.frame_pt _ hit hw).2
          rw [← h, h2] at this
          exact hne this
      rw [swapPage_pte_other m a w _ hu hu2]
      exact ⟨h1, h2⟩
  · intro u hu hpres
    by_cases huv : u = a.vpn
    · subst huv
      rw [hnew]
      simp only
      rw [hfr, if_pos rfl]
      exact ⟨hit, rfl⟩
    · by_cases hev : m.frame m.physicalMemIterator ≠ -1 ∧
          u = (m.frame m.physicalMemIterator).toNat
      · obtain ⟨hw, hue⟩ := hev
        rw [hue, swapPage_pte_evicted hm a w hp hw] at hpres
        exact absurd hpres Bool.false_ne_true
      · have hu2 : m.frame m.physicalMemIterator = -1 ∨
            u ≠ (m.frame m.physicalMemIterator).toNat := by
          by_cases hw : m.frame m.physicalMemIterator = -1
          · exact Or.inl hw
          · exact Or.inr (fun h => hev ⟨hw, h⟩)
        rw [swapPage_pte_other m a w u huv hu2] at hpres ⊢
        obtain ⟨h1, h2⟩ := hm.pt_frame u hu hpres
        refine ⟨h1, ?_⟩
        rw [hfr]
        split
        · next h =>
          exfalso
          rw [h] at h2
          rcases hu2 with h3 | h3
          · omega
          · apply h3; omega
        · exact h2
  · intro u hu hd
    by_cases huv : u = a.vpn
    · subst huv
      rw [hnew]
    · by_cases hev : m.frame m.physicalMemIterator ≠ -1 ∧
          u = (m.frame m.physicalMemIterator).toNat
      · obtain ⟨hw, hue⟩ := hev
        rw [hue, swapPage_pte_evicted hm a w hp hw] at hd
        exact absurd hd Bool.false_ne_true
      · have hu2 : m.frame m.physicalMemIterator = -1 ∨
            u ≠ (m.frame m.physicalMemIterator).toNat := by
          by_cases hw : m.frame m.physicalMemIterator = -1
          · exact Or.inl hw
          · exact Or.inr (fun h => hev ⟨hw, h⟩)
        rw [swapPage_pte_other m a w u huv hu2] at hd ⊢
        exact hm.dirty_present u hu hd


/-! ## The two outcomes of an access under the invariant -/

theorem clearErr_eq {m : MMU} (h : m.tlBuffer.cacheError = false) (b : Bool) :
    ({ m with tlBuffer :=
        { ({ m.tlBuffer with cacheError := b } : TLB) with cacheError := false } } : MMU) = m := by
  obtain ⟨pm, pt, ⟨buf, ce, bi⟩, it, pf⟩ := m
  simp only at h
  subst h
  rfl

theorem tlb_eta {t : TLB} (h : t.cacheError = false) :
    ({ buffer := t.buffer, cacheError := false, bufferIterator := t.bufferIterator } : TLB) = t := by
  obtain ⟨buf, ce, bi⟩ := t
  simp only at h
  subst h
  rfl

theorem clearFlag_eq {m : MMU} (h : m.pagingFlag = false) :
    ({ ({ m with pagingFlag := true } : MMU) with pagingFlag := false } : MMU) = m := by
  obtain ⟨pm, pt, tlb, it, pf⟩ := m
  simp only at h
  subst h
  rfl

theorem translateVA_fault {m : MMU} (hm : Inv m) (a : VRT_Address) (w : Bool)
    (hv : a.vpn < 32) (hp : (m.pte a.vpn).present = false) :
    m.translateVA a w =
      ({ (m.swapPage a w).1 with pagingFlag := true }, m.physicalMemIterator,
        TraceRec.pageFault a.vpn a.value :: (m.swapPage a w).2.2) := by
  have hp2 : (m.pageTable.getD a.vpn default).present = false := hp
  have hge : ¬ a.vpn ≥ m.pageTable.length := by rw [hm.len_pt]; omega
  simp only [MMU.translateVA, hge, if_false, hp2, Bool.false_eq_true, swapPage_ret]

theorem readVA_hit {m : MMU} (hm : Inv m) (a : Nat)
    (hp : (m.pte (VRT_Address.ofValue a).vpn).present = true) :
    m.readVA a =
      (m, [TraceRec.cmdRead (VRT_Address.ofValue a).value,
           TraceRec.success (VRT_Address.ofValue a).vpn (VRT_Address.ofValue a).value
             (m.pte (VRT_Address.ofValue a).vpn).pfn none]) := by
  simp only [MMU.readVA, fetch_of_present hm (vpn_lt a) hp, TLB.getCacheError, hm.noErr,
    Bool.not_false, if_true]
  rw [clearErr_eq hm.noErr]

theorem readVA_fault {m : MMU} (hm : Inv m) (a : Nat)
    (hp : (m.pte (VRT_Address.ofValue a).vpn).present = false) :
    m.readVA a =
      ((m.swapPage (VRT_Address.ofValue a) false).1,
        TraceRec.cmdRead (VRT_Address.ofValue a).value ::
        TraceRec.pageFault (VRT_Address.ofValue a).vpn (VRT_Address.ofValue a).value ::
        (m.swapPage (VRT_Address.ofValue a) false).2.2) := by
  simp only [MMU.readVA, fetch_of_absent hm hp, TLB.getCacheError, Bool.not_true,
    Bool.false_eq_true, if_false]
  rw [clearErr_eq hm.noErr, translateVA_fault hm _ _ (vpn_lt a) hp]
  simp only [if_true, Bool.not_true, Bool.false_eq_true, if_false, List.append_nil,
    List.cons_append]
  rw [clearFlag_eq (by rw [swapPage_flag]; exact hm.noFlag)]

theorem writeVA_hit {m : MMU} (hm : Inv m) (a : Nat)
    (hp : (m.pte (VRT_Address.ofValue a).vpn).present = true) :
    m.writeVA a =
      ({ m with pageTable := setDirty m.pageTable (VRT_Address.ofValue a).vpn },
        [TraceRec.cmdWrite (VRT_Address.ofValue a).value,
         TraceRec.success (VRT_Address.ofValue a).vpn (VRT_Address.ofValue a).value
           (m.pte (VRT_Address.ofValue a).vpn).pfn
           (some (WriteNote.ofDirty (m.pte (VRT_Address.ofValue a).vpn).dirty))]) := by
  simp only [MMU.writeVA, fetch_of_present hm (vpn_lt a) hp, TLB.getCacheError, hm.noErr,
    Bool.not_false, if_true]
  rw [tlb_eta hm.noErr]
  rfl

theorem writeVA_fault {m : MMU} (hm : Inv m) (a : Nat)
    (hp : (m.pte (VRT_Address.ofValue a).vpn).present = false) :
    m.writeVA a =
      ({ (m.swapPage (VRT_Address.ofValue a) true).1 with
          pageTable := setDirty (m.swapPage (VRT_Address.ofValue a) true).1.pageTable
            (VRT_Address.ofValue a).vpn },
        TraceRec.cmdWrite (VRT_Address.ofValue a).value ::
        TraceRec.pageFault (VRT_Address.ofValue a).vpn (VRT_Address.ofValue a).value ::
        (m.swapPage (VRT_Address.ofValue a) true).2.2) := by
  simp only [MMU.writeVA, fetch_of_absent hm hp, TLB.getCacheError, Bool.not_true,
    Bool.false_eq_true, if_false]
  rw [clearErr_eq hm.noErr, translateVA_fault hm _ _ (vpn_lt a) hp]
  simp only [if_true, Bool.not_true, Bool.false_eq_true, if_false, List.append_nil,
    List.cons_append, swapPage_flag, hm.noFlag]

/-! ## Setting the dirty bit of a present page -/

theorem setDirty_pte (m : MMU) (v u : Nat) (hv : v < m.pageTable.length) :
    ({ m with pageTable := setDirty m.pageTable v } : MMU).pte u =
      if u = v then { m.pte v with dirty := true } else m.pte u := by
  simp only [MMU.pte, setDirty]
  split
  · next h => subst h; exact getD_set_self _ _ _ _ hv
  · next h => exact getD_set_other _ _ _ _ _ (fun h2 => h h2.symm)

theorem Inv_setDirty {m : MMU} (hm : Inv m) (v : Nat) (hv : v < 32)
    (hp : (m.pte v).present = true) :
    Inv { m with pageTable := setDirty m.pageTable v } := by
  have hpte := fun u => setDirty_pte m v u (by rw [hm.len_pt]; exact hv)
  refine
    { len_pm := hm.len_pm
      len_pt := by simp [setDirty, hm.len_pt]
      len_tb := hm.len_tb
      it_lt := hm.it_lt
      bi_lt := hm.bi_lt
      noFlag := hm.noFlag
      noErr := hm.noErr
      fill := hm.fill
      range := hm.range
      tlb_use := hm.tlb_use
      tlb_row := hm.tlb_row
      frame_pt := ?_
      pt_frame := ?_
      dirty_present := ?_ }
  · intro i hi hne
    rw [hpte]
    have h := hm.frame_pt i hi hne
    have hf : ({ m with pageTable := setDirty m.pageTable v } : MMU).frame i = m.frame i := rfl
    rw [hf]
    split
    · next he => rw [he] at h; exact h
    · exact h
  · intro u hu
    rw [hpte]
    have hf : ∀ j, ({ m with pageTable := setDirty m.pageTable v } : MMU).frame j =
        m.frame j := fun _ => rfl
    split
    · next he =>
      subst he
      intro _
      rw [hf]
      exact hm.pt_frame u hu hp
    · intro h
      rw [hf]
      exact hm.pt_frame u hu h
  · intro u hu
    rw [hpte]
    split
    · next he => subst he; intro _; exact hp
    · exact hm.dirty_present u hu

/-! ## Every reachable state satisfies the invariant -/

theorem Inv_readVA {m : MMU} (hm : Inv m) (a : Nat) : Inv (m.readVA a).1 := by
  cases hp : (m.pte (VRT_Address.ofValue a).vpn).present with
  | true => rw [readVA_hit hm a hp]; exact hm
  | false => rw [readVA_fault hm a hp]; exact Inv_swapPage hm _ false (vpn_lt a) hp

theorem Inv_writeVA {m : MMU} (hm : Inv m) (a : Nat) : Inv (m.writeVA a).1 := by
  cases hp : (m.pte (VRT_Address.ofValue a).vpn).present with
  | true => rw [writeVA_hit hm a hp]; exact Inv_setDirty hm _ (vpn_lt a) hp
  | false =>
    rw [writeVA_fault hm a hp]
    have hS := Inv_swapPage hm (VRT_Address.ofValue a) true (vpn_lt a) hp
    refine Inv_setDirty hS _ (vpn_lt a) ?_
    rw [swapPage_pte_new hm _ _ (vpn_lt a) hp]

theorem Inv_step {m : MMU} (hm : Inv m) (op : Op) : Inv (m.step op).1 := by
  cases op with
  | read a => exact Inv_readVA hm a
  | write a => exact Inv_writeVA hm a

theorem Inv_run {m : MMU} (hm : Inv m) (ops : List Op) : Inv (m.run ops) := by
  induction ops generalizing m with
  | nil => exact hm
  | cons op ops ih => exact ih (Inv_step hm op)

theorem Inv_reachable (ops : List Op) : Inv (MMU.init.run ops) :=
  Inv_run Inv_init ops

/-! ## Step lemmas: state and trace of one access -/

theorem swapPage_trace (m : MMU) (a : VRT_Address) (w : Bool) :
    (m.swapPage a w).2.2 = m.evictLines ++
      [TraceRec.assign a.vpn a.offset m.physicalMemIterator,
       TraceRec.swapIn a.vpn a.offset m.physicalMemIterator w] := by
  simp only [MMU.swapPage, MMU.evictLines, MMU.frame, MMU.pte]
  split <;> rfl

theorem step_hit {m : MMU} (hm : Inv m) (op : Op) (hp : (m.pte op.vpn).present = true) :
    m.step op = (m.hitPost op,
      [op.cmd, TraceRec.success op.vpn (VRT_Address.ofValue op.addr).value (m.pte op.vpn).pfn
        (if op.isWrite then some (WriteNote.ofDirty (m.pte op.vpn).dirty) else none)]) := by
  cases op with
  | read a => exact readVA_hit hm a hp
  | write a => exact writeVA_hit hm a hp

theorem step_fault {m : MMU} (hm : Inv m) (op : Op) (hp : (m.pte op.vpn).present = false) :
    m.step op = (m.faultPost op,
      op.cmd :: TraceRec.pageFault op.vpn (VRT_Address.ofValue op.addr).value ::
        (m.evictLines ++
          [TraceRec.assign op.vpn (VRT_Address.ofValue op.addr).offset m.physicalMemIterator,
           TraceRec.swapIn op.vpn (VRT_Address.ofValue op.addr).offset m.physicalMemIterator
             op.isWrite])) := by
  cases op with
  | read a =>
    have h := readVA_fault hm a hp
    rw [swapPage_trace] at h
    exact h
  | write a =>
    have h := writeVA_fault hm a hp
    rw [swapPage_trace] at h
    exact h

/-! ## Reading the trace of a hit and of a fault -/

theorem hit_isFault (op : Op) (v va f : Nat) (n : Option WriteNote) :
    isFault [op.cmd, TraceRec.success v va f n] = false := by
  cases op <;> simp [isFault, Op.cmd]

theorem hit_isSuccess (op : Op) (v va f : Nat) (n : Option WriteNote) :
    isSuccess [op.cmd, TraceRec.success v va f n] = true := by
  cases op <;> simp [isSuccess, Op.cmd]

theorem hit_writeBacks (op : Op) (v va f : Nat) (n : Option WriteNote) :
    writeBacks [op.cmd, TraceRec.success v va f n] = [] := by
  cases op <;> simp [writeBacks, Op.cmd]

theorem hit_reportedFrames (op : Op) (v va f : Nat) (n : Option WriteNote) :
    reportedFrames [op.cmd, TraceRec.success v va f n] = [f] := by
  cases op <;> simp [reportedFrames, Op.cmd]

theorem hit_faultOf (op : Op) (v va f : Nat) (n : Option WriteNote) :
    faultOf [op.cmd, TraceRec.success v va f n] = none := by
  simp [faultOf, hit_isFault]

theorem fault_isFault (m : MMU) (op : Op) (v va o f : Nat) (w : Bool) :
    isFault (op.cmd :: TraceRec.pageFault v va ::
      (m.evictLines ++ [TraceRec.assign v o f, TraceRec.swapIn v o f w])) = true := by
  simp [isFault]

theorem fault_isSuccess (m : MMU) (op : Op) (v va o f : Nat) (w : Bool) :
    isSuccess (op.cmd :: TraceRec.pageFault v va ::
      (m.evictLines ++ [TraceRec.assign v o f, TraceRec.swapIn v o f w])) = false := by
  cases op <;> simp only [isSuccess, Op.cmd, MMU.evictLines] <;> split <;> try split
  all_goals simp

theorem fault_writeBacks (m : MMU) (op : Op) (v va o f : Nat) (w : Bool) :
    writeBacks (op.cmd :: TraceRec.pageFault v va ::
      (m.evictLines ++ [TraceRec.assign v o f, TraceRec.swapIn v o f w])) =
      if m.frame m.physicalMemIterator ≠ -1 ∧
          (m.pte (m.frame m.physicalMemIterator).toNat).dirty = true then
        [m.frame m.physicalMemIterator] else [] := by
  cases op <;> simp only [writeBacks, Op.cmd, MMU.evictLines] <;>
    by_cases h1 : m.frame m.physicalMemIterator = -1 <;>
    by_cases h2 : (m.pte (m.frame m.physicalMemIterator).toNat).dirty = true <;>
    simp [h1, h2]

theorem fault_ejected (m : MMU) (op : Op) (v va o f : Nat) (w : Bool) :
    ejected (op.cmd :: TraceRec.pageFault v va ::
      (m.evictLines ++ [TraceRec.assign v o f, TraceRec.swapIn v o f w])) =
      if m.frame m.physicalMemIterator ≠ -1 then [m.frame m.physicalMemIterator] else [] := by
  cases op <;> simp only [ejected, Op.cmd, MMU.evictLines] <;>
    by_cases h1 : m.frame m.physicalMemIterator = -1 <;>
    by_cases h2 : (m.pte (m.frame m.physicalMemIterator).toNat).dirty = true <;>
    simp [h1, h2]

theorem fault_assigned (m : MMU) (op : Op) (v va o f : Nat) (w : Bool) :
    assigned (op.cmd :: TraceRec.pageFault v va ::
      (m.evictLines ++ [TraceRec.assign v o f, TraceRec.swapIn v o f w])) = [(v, f)] := by
  cases op <;> simp only [assigned, Op.cmd, MMU.evictLines] <;>
    by_cases h1 : m.frame m.physicalMemIterator = -1 <;>
    by_cases h2 : (m.pte (m.frame m.physicalMemIterator).toNat).dirty = true <;>
    simp [h1, h2]

theorem fault_reportedFrames (m : MMU) (op : Op) (v va o f : Nat) (w : Bool) :
    reportedFrames (op.cmd :: TraceRec.pageFault v va ::
      (m.evictLines ++ [TraceRec.assign v o f, TraceRec.swapIn v o f w])) = [f] := by
  cases op <;> simp only [reportedFrames, Op.cmd, MMU.evictLines] <;>
    by_cases h1 : m.frame m.physicalMemIterator = -1 <;>
    by_cases h2 : (m.pte (m.frame m.physicalMemIterator).toNat).dirty = true <;>
    simp [h1, h2]

theorem fault_faultOf (m : MMU) (op : Op) (v va o f : Nat) (w : Bool) :
    faultOf (op.cmd :: TraceRec.pageFault v va ::
      (m.evictLines ++ [TraceRec.assign v o f, TraceRec.swapIn v o f w])) =
      some { vpn := v, frame := f,
             evicted := if m.frame m.physicalMemIterator ≠ -1 then
               some (m.frame m.physicalMemIterator) else none } := by
  simp only [faultOf, fault_isFault, fault_assigned, fault_ejected, if_true]
  by_cases h1 : m.frame m.physicalMemIterator = -1 <;> simp [h1]

/-! ## Invariants of reachable states -/

/-- C1, consistency invariant: in every state reached from the constructed
initial state by `readVA`/`writeVA` calls, a frame slot `i` holding a page
`v` (not `-1`) means `v` is a valid page whose entry is present with
`pfn = i`; conversely every present entry `v` has `physicalMem[pfn] = v`;
hence two present entries never share a frame. -/
theorem consistency_invariant (ops : List Op) :
    (∀ i, i < 8 → ∀ v : Int, (MMU.init.run ops).frame i = v → v ≠ -1 →
      (0 ≤ v ∧ v < 32) ∧
      ((MMU.init.run ops).pte v.toNat).present = true ∧
      ((MMU.init.run ops).pte v.toNat).pfn = i) ∧
    (∀ v, v < 32 → ((MMU.init.run ops).pte v).present = true →
      ((MMU.init.run ops).pte v).pfn < 8 ∧
      (MMU.init.run ops).frame ((MMU.init.run ops).pte v).pfn = (v : Int)) ∧
    (∀ u v, u < 32 → v < 32 →
      ((MMU.init.run ops).pte u).present = true →
      ((MMU.init.run ops).pte v).present = true →
      ((MMU.init.run ops).pte u).pfn = ((MMU.init.run ops).pte v).pfn → u = v) := by
  have hm := Inv_reachable ops
  refine ⟨?_, hm.pt_frame, ?_⟩
  · intro i hi v hv hne
    subst hv
    have hr := hm.range i hi
    exact ⟨⟨by omega, hr.2⟩, hm.frame_pt i hi hne⟩
  · intro u v hu hv hpu hpv he
    have h1 := (hm.pt_frame u hu hpu).2
    have h2 := (hm.pt_frame v hv hpv).2
    rw [he, h2] at h1
    exact_mod_cast h1.symm

theorem presentCount_le {m : MMU} (hm : Inv m) : m.presentCount ≤ 8 := by
  unfold MMU.presentCount
  rw [hm.len_pt]
  have hnd : ((List.range 32).filter (fun v => (m.pte v).present)).Nodup :=
    (List.nodup_range 32).filter _
  have hmem : ∀ x, x ∈ (List.range 32).filter (fun v => (m.pte v).present) →
      x < 32 ∧ (m.pte x).present = true := by
    intro x hx
    simpa using hx
  have hinj : (((List.range 32).filter (fun v => (m.pte v).present)).map
      (fun v => (m.pte v).pfn)).Nodup := by
    refine List.Nodup.map_on ?_ hnd
    intro x hx y hy hxy
    obtain ⟨hx1, hx2⟩ := hmem x hx
    obtain ⟨hy1, hy2⟩ := hmem y hy
    have h1 := (hm.pt_frame x hx1 hx2).2
    have h2 := (hm.pt_frame y hy1 hy2).2
    rw [hxy, h2] at h1
    exact_mod_cast h1.symm
  have hsub : (((List.range 32).filter (fun v => (m.pte v).present)).map
      (fun v => (m.pte v).pfn)).toFinset ⊆ Finset.range 8 := by
    intro f hf
    simp only [List.mem_toFinset, List.mem_map] at hf
    obtain ⟨x, hx, rfl⟩ := hf
    obtain ⟨hx1, hx2⟩ := hmem x hx
    exact Finset.mem_range.2 (hm.pt_frame x hx1 hx2).1
  have hcard := Finset.card_le_card hsub
  rw [List.toFinset_card_of_nodup hinj, List.length_map, Finset.card_range] at hcard
  exact hcard

/-- C2, capacity invariant: in every state reached from the initial state by
`readVA`/`writeVA` calls, at most 8 page table entries are present. -/
theorem capacity_invariant (ops : List Op) : (MMU.init.run ops).presentCount ≤ 8 :=
  presentCount_le (Inv_reachable ops)

/-! ## Pointwise description of the state after an access -/

theorem Inv_hitPost {m : MMU} (hm : Inv m) (op : Op) (hp : (m.pte op.vpn).present = true) :
    Inv (m.hitPost op) := by
  have h := Inv_step hm op
  rw [step_hit hm op hp] at h
  exact h

theorem Inv_faultPost {m : MMU} (hm : Inv m) (op : Op) (hp : (m.pte op.vpn).present = false) :
    Inv (m.faultPost op) := by
  have h := Inv_step hm op
  rw [step_fault hm op hp] at h
  exact h

theorem hitPost_frame (m : MMU) (op : Op) (i : Nat) : (m.hitPost op).frame i = m.frame i := by
  unfold MMU.hitPost
  split <;> rfl

theorem hitPost_cursor (m : MMU) (op : Op) :
    (m.hitPost op).physicalMemIterator = m.physicalMemIterator := by
  unfold MMU.hitPost
  split <;> rfl

theorem hitPost_tlb (m : MMU) (op : Op) : (m.hitPost op).tlBuffer = m.tlBuffer := by
  unfold MMU.hitPost
  split <;> rfl

theorem hitPost_pte {m : MMU} (hm : Inv m) (op : Op) (u : Nat) :
    (m.hitPost op).pte u =
      if op.isWrite = true ∧ u = op.vpn then { m.pte u with dirty := true } else m.pte u := by
  unfold MMU.hitPost
  have hv : op.vpn < m.pageTable.length := by
    rw [hm.len_pt]
    exact vpn_lt _
  cases hw : op.isWrite with
  | false => simp
  | true =>
    simp only [if_true, true_and]
    rw [setDirty_pte m op.vpn u hv]
    split
    · next h => rw [h]
    · rfl

theorem faultPost_frame {m : MMU} (hm : Inv m) (op : Op) (i : Nat) :
    (m.faultPost op).frame i =
      if i = m.physicalMemIterator then (op.vpn : Int) else m.frame i := by
  have hlen : m.physicalMemIterator < m.physicalMem.length := by
    rw [hm.len_pm]
    exact hm.it_lt
  unfold MMU.faultPost
  split
  · exact swapPage_frame m _ true i hlen
  · exact swapPage_frame m _ false i hlen

theorem faultPost_cursor (m : MMU) (op : Op) :
    (m.faultPost op).physicalMemIterator =
      if m.physicalMemIterator + 1 ≥ 8 then 0 else m.physicalMemIterator + 1 := by
  unfold MMU.faultPost
  split <;> rfl

theorem faultPost_row {m : MMU} (hm : Inv m) (op : Op) (i : Nat) :
    (m.faultPost op).row i =
      if i = m.physicalMemIterator then
        { in_use := true, VPN := op.vpn, PFN := m.physicalMemIterator }
      else m.row i := by
  unfold MMU.faultPost
  split
  · exact swapPage_row hm _ true i
  · exact swapPage_row hm _ false i

theorem faultPost_pte_new {m : MMU} (hm : Inv m) (op : Op)
    (hp : (m.pte op.vpn).present = false) :
    (m.faultPost op).pte op.vpn =
      { m.pte op.vpn with
        present := true, pfn := m.physicalMemIterator,
        dirty := (op.isWrite || (m.pte op.vpn).dirty) } := by
  unfold MMU.faultPost
  cases hw : op.isWrite with
  | false =>
    simp only [Bool.false_eq_true, if_false, Bool.false_or]
    exact swapPage_pte_new hm _ false (vpn_lt _) hp
  | true =>
    simp only [if_true, Bool.true_or]
    rw [setDirty_pte _ op.vpn op.vpn (by rw [swapPage_len_pt, hm.len_pt]; exact vpn_lt _),
      if_pos rfl]
    have := swapPage_pte_new hm (VRT_Address.ofValue op.addr) true (vpn_lt _) hp
    rw [show (VRT_Address.ofValue op.addr).vpn = op.vpn from rfl] at this
    rw [this]

theorem faultPost_pte_ne {m : MMU} (hm : Inv m) (op : Op) (u : Nat) (hu : u ≠ op.vpn) :
    (m.faultPost op).pte u = (m.swapPage (VRT_Address.ofValue op.addr) op.isWrite).1.pte u := by
  unfold MMU.faultPost
  cases hw : op.isWrite with
  | false => simp
  | true =>
    simp only [if_true]
    rw [setDirty_pte _ op.vpn u (by rw [swapPage_len_pt, hm.len_pt]; exact vpn_lt _),
      if_neg hu]

theorem faultPost_pte_evicted {m : MMU} (hm : Inv m) (op : Op)
    (hp : (m.pte op.vpn).present = false) (hw : m.frame m.physicalMemIterator ≠ -1) :
    (m.faultPost op).pte (m.frame m.physicalMemIterator).toNat =
      { m.pte (m.frame m.physicalMemIterator).toNat with
        dirty := false, present := false, pfn := 0 } := by
  rw [faultPost_pte_ne hm op _ (evicted_ne hm hp hw)]
  exact swapPage_pte_evicted hm _ _ hp hw

theorem faultPost_pte_other {m : MMU} (hm : Inv m) (op : Op) (u : Nat) (hu : u ≠ op.vpn)
    (hu2 : m.frame m.physicalMemIterator = -1 ∨ u ≠ (m.frame m.physicalMemIterator).toNat) :
    (m.faultPost op).pte u = m.pte u := by
  rw [faultPost_pte_ne hm op _ hu]
  exact swapPage_pte_other m _ _ u hu hu2

/-! ## FIFO order of page faults -/

theorem FifoLog_snoc {m : MMU} {L : List FaultEv} (hJ : FifoInv m L) (hL : FifoLog L)
    (v : Nat) :
    FifoLog (L ++ [{ vpn := v, frame := m.physicalMemIterator,
                     evicted := if m.frame m.physicalMemIterator ≠ -1 then
                       some (m.frame m.physicalMemIterator) else none }]) := by
  intro k e hk
  by_cases hlt : k < L.length
  · rw [List.getElem?_append_left hlt] at hk
    obtain ⟨h1, h2, h3⟩ := hL k e hk
    refine ⟨h1, h2, fun h8 => ?_⟩
    obtain ⟨e0, he0, hev⟩ := h3 h8
    exact ⟨e0, by rw [List.getElem?_append_left (by omega)]; exact he0, hev⟩
  · have hge : L.length ≤ k := Nat.le_of_not_lt hlt
    rw [List.getElem?_append_right hge] at hk
    have hk0 : k = L.length := by
      by_contra hne
      have : k - L.length ≠ 0 := by omega
      obtain ⟨n, hn⟩ := Nat.exists_eq_succ_of_ne_zero this
      rw [hn] at hk
      simp at hk
    subst hk0
    simp only [Nat.sub_self, List.getElem?_cons_zero, Option.some.injEq] at hk
    subst hk
    refine ⟨hJ.cursor, fun h8 => ?_, fun h8 => ?_⟩
    · have hc : m.physicalMemIterator = L.length := by rw [hJ.cursor]; omega
      have := hJ.empty L.length h8 (Nat.le_refl _)
      simp only [hc, this, ne_eq, not_true_eq_false, if_false]
    · have hlt8 : L.length - 8 < L.length := by omega
      obtain ⟨e0, he0⟩ : ∃ e0, L[L.length - 8]? = some e0 :=
        ⟨L[L.length - 8], List.getElem?_eq_getElem hlt8⟩
      have hfr := hJ.recent _ e0 he0 (by omega)
      have hidx : (L.length - 8) % 8 = m.physicalMemIterator := by rw [hJ.cursor]; omega
      rw [hidx] at hfr
      refine ⟨e0, by rw [List.getElem?_append_left hlt8]; exact he0, ?_⟩
      have hne : m.frame m.physicalMemIterator ≠ -1 := by omega
      simp only [ne_eq, hne, not_false_eq_true, if_true]
      rw [hfr]

theorem FifoInv_hit {m : MMU} {L : List FaultEv} (hJ : FifoInv m L) (op : Op) :
    FifoInv (m.hitPost op) L where
  cursor := by rw [hitPost_cursor]; exact hJ.cursor
  recent := by
    intro j e hj hle
    rw [hitPost_frame]
    exact hJ.recent j e hj hle
  empty := by
    intro i hi hle
    rw [hitPost_frame]
    exact hJ.empty i hi hle

theorem FifoInv_fault {m : MMU} (hm : Inv m) {L : List FaultEv} (hJ : FifoInv m L) (op : Op)
    (ev : Option Int) :
    FifoInv (m.faultPost op)
      (L ++ [{ vpn := op.vpn, frame := m.physicalMemIterator, evicted := ev }]) where
  cursor := by
    rw [faultPost_cursor, hJ.cursor, List.length_append]
    simp only [List.length_singleton]
    split <;> omega
  recent := by
    intro j e hj hle
    rw [List.length_append, List.length_singleton] at hle
    rw [faultPost_frame hm]
    by_cases hlt : j < L.length
    · rw [List.getElem?_append_left hlt] at hj
      have hne : j % 8 ≠ m.physicalMemIterator := by rw [hJ.cursor]; omega
      rw [if_neg hne]
      exact hJ.recent j e hj (by omega)
    · have hge : L.length ≤ j := Nat.le_of_not_lt hlt
      rw [List.getElem?_append_right hge] at hj
      have hj0 : j = L.length := by
        by_contra hne
        have : j - L.length ≠ 0 := by omega
        obtain ⟨n, hn⟩ := Nat.exists_eq_succ_of_ne_zero this
        rw [hn] at hj
        simp at hj
      subst hj0
      simp only [Nat.sub_self, List.getElem?_cons_zero, Option.some.injEq] at hj
      subst hj
      rw [if_pos hJ.cursor.symm]
  empty := by
    intro i hi hle
    rw [List.length_append, List.length_singleton] at hle
    rw [faultPost_frame hm]
    have hne : i ≠ m.physicalMemIterator := by rw [hJ.cursor]; omega
    rw [if_neg hne]
    exact hJ.empty i hi (by omega)

theorem FifoLog_run (ops : List Op) :
    ∀ (m : MMU) (L : List FaultEv), Inv m → FifoInv m L → FifoLog L →
      FifoLog (L ++ m.faultLog ops) := by
  induction ops with
  | nil =>
    intro m L _ _ hL
    simpa [MMU.faultLog] using hL
  | cons op ops ih =>
    intro m L hm hJ hL
    cases hp : (m.pte op.vpn).present with
    | true =>
      have hs := step_hit hm op hp
      simp only [MMU.faultLog, hs, hit_faultOf, Option.toList, List.nil_append]
      exact ih _ L (Inv_hitPost hm op hp) (FifoInv_hit hJ op) hL
    | false =>
      have hs := step_fault hm op hp
      simp only [MMU.faultLog, hs, fault_faultOf, Option.toList]
      rw [← List.append_assoc]
      exact ih _ _ (Inv_faultPost hm op hp) (FifoInv_fault hm hJ op _) (FifoLog_snoc hJ hL _)

theorem FifoInv_init : FifoInv MMU.init [] where
  cursor := rfl
  recent := by intro j e hj; simp at hj
  empty := by decide

/-- C3, FIFO order: for every sequence of `readVA`/`writeVA` calls from the
initial state, with the page faults numbered 0, 1, 2, ... in order of
occurrence, fault `k` is assigned frame `k mod 8`; faults 0..7 evict nothing;
every fault `k ≥ 8` evicts exactly the page installed by fault `k - 8`.
Accesses that do not fault contribute nothing to the log, however many occur. -/
theorem fifo_order (ops : List Op) (k : Nat) (e : FaultEv)
    (hk : (MMU.init.faultLog ops)[k]? = some e) :
    e.frame = k % 8 ∧ (k < 8 → e.evicted = none) ∧
    (8 ≤ k → ∃ e0, (MMU.init.faultLog ops)[k - 8]? = some e0 ∧
      e.evicted = some (e0.vpn : Int)) := by
  have h := FifoLog_run ops MMU.init [] Inv_init FifoInv_init
    (by intro k e hk; simp at hk)
  rw [List.nil_append] at h
  exact h k e hk

/-! ## Reachable states and the TLB probe -/

theorem Reachable.inv {m : MMU} (hr : Reachable m) : Inv m := by
  obtain ⟨ops, rfl⟩ := hr
  exact Inv_reachable ops

theorem lookup_present {m : MMU} (hm : Inv m) {v : Nat} (hv : v < 32)
    (hp : (m.pte v).present = true) : m.tlBuffer.lookup v = some (m.pte v).pfn := by
  simp only [TLB.lookup, fetch_of_present hm hv hp, TLB.getCacheError, hm.noErr,
    Bool.false_eq_true, if_false]

theorem lookup_absent {m : MMU} (hm : Inv m) {v : Nat}
    (hp : (m.pte v).present = false) : m.tlBuffer.lookup v = none := by
  simp only [TLB.lookup, fetch_of_absent hm hp, TLB.getCacheError, if_true]

/-! ## Write-back on eviction -/

/-- C4, dirty/write-back: for a reachable state and an access whose trace
has a page fault while the slot under the FIFO cursor holds page `w`, the
trace has exactly one write-back line, for `w`, when `w` was dirty and none
when it was clean, and afterwards `w` is neither dirty nor present.  A fault
into an empty slot and an access without a fault print no write-back line. -/
theorem dirty_write_back (m : MMU) (hr : Reachable m) (op : Op) :
    (isFault (m.step op).2 = true → ∀ w : Int,
        m.frame m.physicalMemIterator = w → w ≠ -1 →
      writeBacks (m.step op).2 = (if (m.pte w.toNat).dirty = true then [w] else []) ∧
      ((m.step op).1.pte w.toNat).dirty = false ∧
      ((m.step op).1.pte w.toNat).present = false) ∧
    (isFault (m.step op).2 = true → m.frame m.physicalMemIterator = -1 →
      writeBacks (m.step op).2 = []) ∧
    (isFault (m.step op).2 = false → writeBacks (m.step op).2 = []) := by
  have hm := hr.inv
  cases hp : (m.pte op.vpn).present with
  | true =>
    rw [step_hit hm op hp]
    simp only [hit_isFault, hit_writeBacks, Bool.false_eq_true, false_implies, true_and,
      implies_true]
  | false =>
    rw [step_fault hm op hp]
    simp only [fault_isFault, fault_writeBacks, true_implies, Bool.true_eq_false,
      false_implies, and_true]
    refine ⟨?_, ?_⟩
    · intro w hw hne
      subst hw
      rw [faultPost_pte_evicted hm op hp hne]
      simp only [hne, ne_eq, not_false_eq_true, true_and, and_self, and_true]
    · intro he
      simp only [he, ne_eq, not_true_eq_false, false_and, if_false]

/-! ## The TLB stays inside the page table -/

/-- C5, TLB subset invariant: in every state reached from the initial state,
every in-use TLB row `(VPN = v, PFN = f)` has `pageTable[v]` present with `pfn = f`. -/
theorem tlb_subset_invariant (ops : List Op) (e : PMME)
    (he : e ∈ (MMU.init.run ops).tlBuffer.buffer) (hu : e.in_use = true) :
    ((MMU.init.run ops).pte e.VPN).present = true ∧
    ((MMU.init.run ops).pte e.VPN).pfn = e.PFN := by
  have hm := Inv_reachable ops
  obtain ⟨i, hi, hie⟩ := List.getElem_of_mem he
  have hi8 : i < 8 := by rw [← hm.len_tb]; exact hi
  have hrow : (MMU.init.run ops).row i = e := by
    rw [← hie]
    exact List.getD_eq_getElem _ _ hi
  have huse : ((MMU.init.run ops).row i).in_use = true := by rw [hrow]; exact hu
  obtain ⟨h1, h2⟩ := hm.tlb_row i hi8 huse
  have hne := (hm.tlb_use i hi8).1 huse
  have h3 := hm.frame_pt i hi8 hne
  rw [← h2, hrow] at h3
  rw [hrow] at h1
  simp only [Int.toNat_ofNat] at h3
  rw [h1]
  exact h3

/-- C6, TLB consistency after eviction: for a reachable state and an access
that page-faults on page `v`, evicting page `w` from frame `F` and installing
`v` there, immediately afterwards a TLB probe for `w` misses and a TLB probe
for `v` hits and returns `F`. -/
theorem tlb_after_eviction (m : MMU) (hr : Reachable m) (op : Op) (v F : Nat) (w : Int)
    (hf : faultOf (m.step op).2 = some { vpn := v, frame := F, evicted := some w }) :
    (m.step op).1.tlBuffer.lookup w.toNat = none ∧
    (m.step op).1.tlBuffer.lookup v = some F := by
  have hm := hr.inv
  cases hp : (m.pte op.vpn).present with
  | true =>
    rw [step_hit hm op hp, hit_faultOf] at hf
    exact absurd hf (by simp)
  | false =>
    rw [step_fault hm op hp] at hf ⊢
    rw [fault_faultOf] at hf
    simp only [Option.some.injEq, FaultEv.mk.injEq] at hf
    obtain ⟨hv, hF, hw⟩ := hf
    have hne : m.frame m.physicalMemIterator ≠ -1 := by
      intro h
      simp [h] at hw
    simp only [ne_eq, hne, not_false_eq_true, if_true, Option.some.injEq] at hw
    subst hv hF hw
    have hP := Inv_faultPost hm op hp
    constructor
    · apply lookup_absent hP
      rw [faultPost_pte_evicted hm op hp hne]
    · have hpn := faultPost_pte_new hm op hp
      have hvl : op.vpn < 32 := vpn_lt op.addr
      have := lookup_present hP hvl (by rw [hpn])
      rw [hpn] at this
      exact this

/-! ## The range guard of `translateVA` -/

/-- C8, every legal access resolves: for a reachable state and any 16-bit
address with page `v`, after `readVA` or `writeVA` the entry of `v` is
present, the frame it names holds `v`, a TLB probe for `v` hits with that
frame, and the single frame number the trace reports (success or assignment
line) is that frame. -/
theorem access_resolves (m : MMU) (hr : Reachable m) (op : Op) :
    ((m.step op).1.pte op.vpn).present = true ∧
    (m.step op).1.frame ((m.step op).1.pte op.vpn).pfn = (op.vpn : Int) ∧
    (m.step op).1.tlBuffer.lookup op.vpn = some ((m.step op).1.pte op.vpn).pfn ∧
    reportedFrames (m.step op).2 = [((m.step op).1.pte op.vpn).pfn] := by
  have hm := hr.inv
  have hP := Inv_step hm op
  have hvl : op.vpn < 32 := vpn_lt op.addr
  have key : ((m.step op).1.pte op.vpn).present = true ∧
      reportedFrames (m.step op).2 = [((m.step op).1.pte op.vpn).pfn] := by
    cases hp : (m.pte op.vpn).present with
    | true =>
      rw [step_hit hm op hp, hit_reportedFrames]
      simp only [hitPost_pte hm]
      split <;> simp [hp]
    | false =>
      rw [step_fault hm op hp, fault_reportedFrames]
      simp only [faultPost_pte_new hm op hp, and_self]
  exact ⟨key.1, (hP.pt_frame _ hvl key.1).2, lookup_present hP hvl key.1, key.2⟩

/-! ## Dirty bits -/

/-- C9, a write sets dirty on every path: for a reachable state and any
16-bit address, after `writeVA` the entry of the addressed page is dirty, and
no other page has its dirty bit changed from 0 to 1. -/
theorem write_sets_dirty (m : MMU) (hr : Reachable m) (a : Nat) :
    ((m.writeVA a).1.pte (VRT_Address.ofValue a).vpn).dirty = true ∧
    ∀ u, u ≠ (VRT_Address.ofValue a).vpn → (m.pte u).dirty = false →
      ((m.writeVA a).1.pte u).dirty = false := by
  have hm := hr.inv
  have hstep : m.writeVA a = m.step (Op.write a) := rfl
  have hvpn : (VRT_Address.ofValue a).vpn = (Op.write a).vpn := rfl
  rw [hstep, hvpn]
  cases hp : (m.pte (Op.write a).vpn).present with
  | true =>
    rw [step_hit hm _ hp]
    simp only [hitPost_pte hm]
    refine ⟨by simp [Op.isWrite], fun u hu hd => ?_⟩
    rw [if_neg (fun h => hu h.2)]
    exact hd
  | false =>
    rw [step_fault hm _ hp]
    refine ⟨by rw [faultPost_pte_new hm _ hp]; simp [Op.isWrite], fun u hu hd => ?_⟩
    by_cases hev : m.frame m.physicalMemIterator ≠ -1 ∧
        u = (m.frame m.physicalMemIterator).toNat
    · obtain ⟨hw, hue⟩ := hev
      simp only [hue]
      rw [faultPost_pte_evicted hm _ hp hw]
    · have hu2 : m.frame m.physicalMemIterator = -1 ∨
          u ≠ (m.frame m.physicalMemIterator).toNat := by
        by_cases hw : m.frame m.physicalMemIterator = -1
        · exact Or.inl hw
        · exact Or.inr (fun h => hev ⟨hw, h⟩)
      simp only
      rw [faultPost_pte_other hm _ u hu hu2]
      exact hd

/-- C10, reads never set dirty: for a reachable state and any 16-bit
address, `readVA` changes no page's dirty bit from 0 to 1; and when the TLB
probe for the addressed page hits, `readVA` leaves the whole MMU state (page
table, frame pool, FIFO cursor, TLB) unchanged. -/
theorem read_never_dirties (m : MMU) (hr : Reachable m) (a : Nat) :
    (∀ u, (m.pte u).dirty = false → ((m.readVA a).1.pte u).dirty = false) ∧
    (m.tlBuffer.lookup (VRT_Address.ofValue a).vpn ≠ none → (m.readVA a).1 = m) := by
  have hm := hr.inv
  have hstep : m.readVA a = m.step (Op.read a) := rfl
  have hvpn : (VRT_Address.ofValue a).vpn = (Op.read a).vpn := rfl
  rw [hstep, hvpn]
  cases hp : (m.pte (Op.read a).vpn).present with
  | true =>
    rw [step_hit hm _ hp]
    exact ⟨fun u hd => hd, fun _ => rfl⟩
  | false =>
    rw [step_fault hm _ hp]
    refine ⟨fun u hd => ?_, fun h => absurd (lookup_absent hm hp) h⟩
    by_cases huv : u = (Op.read a).vpn
    · subst huv
      simp only
      rw [faultPost_pte_new hm _ hp]
      simpa [Op.isWrite] using hd
    · by_cases hev : m.frame m.physicalMemIterator ≠ -1 ∧
          u = (m.frame m.physicalMemIterator).toNat
      · obtain ⟨hw, hue⟩ := hev
        simp only [hue]
        rw [faultPost_pte_evicted hm _ hp hw]
      · have hu2 : m.frame m.physicalMemIterator = -1 ∨
            u ≠ (m.frame m.physicalMemIterator).toNat := by
          by_cases hw : m.frame m.physicalMemIterator = -1
          · exact Or.inl hw
          · exact Or.inr (fun h => hev ⟨hw, h⟩)
        simp only
        rw [faultPost_pte_other hm _ u huv hu2]
        exact hd

/-! ## Concrete instances -/

theorem fifo_order_witness :
    (MMU.init.faultLog fifoDemo)[9]? = some { vpn := 0, frame := 1, evicted := some 1 } ∧
    (({ vpn := 0, frame := 1, evicted := some 1 } : FaultEv).frame = 9 % 8 ∧
      (9 < 8 → ({ vpn := 0, frame := 1, evicted := some 1 } : FaultEv).evicted = none) ∧
      (8 ≤ 9 → ∃ e0, (MMU.init.faultLog fifoDemo)[9 - 8]? = some e0 ∧
        ({ vpn := 0, frame := 1, evicted := some 1 } : FaultEv).evicted =
          some (e0.vpn : Int))) :=
  ⟨by decide, fifo_order fifoDemo 9 _ (by decide)⟩

theorem dirty_write_back_witness :
    (isFault ((MMU.init.run fullDirty).step (Op.read 16384)).2 = true ∧
      (MMU.init.run fullDirty).frame (MMU.init.run fullDirty).physicalMemIterator = 0 ∧
      ((MMU.init.run fullDirty).pte 0).dirty = true ∧
      writeBacks ((MMU.init.run fullDirty).step (Op.read 16384)).2 =
        (if ((MMU.init.run fullDirty).pte (0 : Int).toNat).dirty = true then [0] else []) ∧
      (((MMU.init.run fullDirty).step (Op.read 16384)).1.pte (0 : Int).toNat).dirty = false ∧
      (((MMU.init.run fullDirty).step (Op.read 16384)).1.pte (0 : Int).toNat).present = false) ∧
    (isFault ((MMU.init.run fullClean).step (Op.write 16384)).2 = true ∧
      (MMU.init.run fullClean).frame (MMU.init.run fullClean).physicalMemIterator = 0 ∧
      ((MMU.init.run fullClean).pte 0).dirty = false ∧
      writeBacks ((MMU.init.run fullClean).step (Op.write 16384)).2 =
        (if ((MMU.init.run fullClean).pte (0 : Int).toNat).dirty = true then [0] else []) ∧
      (((MMU.init.run fullClean).step (Op.write 16384)).1.pte (0 : Int).toNat).dirty = false ∧
      (((MMU.init.run fullClean).step (Op.write 16384)).1.pte (0 : Int).toNat).present = false) ∧
    (isFault ((MMU.init.run []).step (Op.write 6200)).2 = true ∧
      (MMU.init.run []).frame (MMU.init.run []).physicalMemIterator = -1 ∧
      writeBacks ((MMU.init.run []).step (Op.write 6200)).2 = []) ∧
    (isFault ((MMU.init.run fullDirty).step (Op.write 5)).2 = false ∧
      writeBacks ((MMU.init.run fullDirty).step (Op.write 5)).2 = []) :=
  ⟨⟨by decide, by decide, by decide,
      (dirty_write_back (MMU.init.run fullDirty) ⟨fullDirty, rfl⟩ (Op.read 16384)).1
        (by decide) 0 (by decide) (by decide)⟩,
    ⟨by decide, by decide, by decide,
      (dirty_write_back (MMU.init.run fullClean) ⟨fullClean, rfl⟩ (Op.write 16384)).1
        (by decide) 0 (by decide) (by decide)⟩,
    ⟨by decide, by decide,
      (dirty_write_back (MMU.init.run []) ⟨[], rfl⟩ (Op.write 6200)).2.1
        (by decide) (by decide)⟩,
    ⟨by decide,
      (dirty_write_back (MMU.init.run fullDirty) ⟨fullDirty, rfl⟩ (Op.write 5)).2.2
        (by decide)⟩⟩

theorem tlb_subset_invariant_witness :
    ({ in_use := true, VPN := 8, PFN := 0 } : PMME) ∈
      (MMU.init.run (fullClean ++ [Op.read 16384])).tlBuffer.buffer ∧
    ((MMU.init.run (fullClean ++ [Op.read 16384])).pte 8).present = true ∧
    ((MMU.init.run (fullClean ++ [Op.read 16384])).pte 8).pfn = 0 :=
  ⟨by decide,
    tlb_subset_invariant (fullClean ++ [Op.read 16384]) { in_use := true, VPN := 8, PFN := 0 }
      (by decide) rfl⟩

theorem tlb_after_eviction_witness :
    faultOf ((MMU.init.run fullDirty).step (Op.read 16389)).2 =
      some { vpn := 8, frame := 0, evicted := some 0 } ∧
    ((MMU.init.run fullDirty).step (Op.read 16389)).1.tlBuffer.lookup (0 : Int).toNat = none ∧
    ((MMU.init.run fullDirty).step (Op.read 16389)).1.tlBuffer.lookup 8 = some 0 :=
  ⟨by decide,
    tlb_after_eviction (MMU.init.run fullDirty) ⟨fullDirty, rfl⟩ (Op.read 16389) 8 0 0
      (by decide)⟩

theorem access_resolves_witness :
    (((MMU.init.run fullDirty).step (Op.write 16389)).1.pte (Op.write 16389).vpn).present = true ∧
    ((MMU.init.run fullDirty).step (Op.write 16389)).1.frame
      (((MMU.init.run fullDirty).step (Op.write 16389)).1.pte (Op.write 16389).vpn).pfn =
      ((Op.write 16389).vpn : Int) ∧
    ((MMU.init.run fullDirty).step (Op.write 16389)).1.tlBuffer.lookup (Op.write 16389).vpn =
      some (((MMU.init.run fullDirty).step (Op.write 16389)).1.pte (Op.write 16389).vpn).pfn ∧
    reportedFrames ((MMU.init.run fullDirty).step (Op.write 16389)).2 =
      [(((MMU.init.run fullDirty).step (Op.write 16389)).1.pte (Op.write 16389).vpn).pfn] :=
  access_resolves (MMU.init.run fullDirty) ⟨fullDirty, rfl⟩ (Op.write 16389)

theorem write_sets_dirty_witness :
    (((MMU.init.run fullClean).writeVA 16389).1.pte (VRT_Address.ofValue 16389).vpn).dirty = true ∧
    ∀ u, u ≠ (VRT_Address.ofValue 16389).vpn → ((MMU.init.run fullClean).pte u).dirty = false →
      (((MMU.init.run fullClean).writeVA 16389).1.pte u).dirty = false :=
  write_sets_dirty (MMU.init.run fullClean) ⟨fullClean, rfl⟩ 16389

theorem read_never_dirties_witness :
    (MMU.init.run fullClean).tlBuffer.lookup (VRT_Address.ofValue 6300).vpn ≠ none ∧
    (∀ u, ((MMU.init.run fullClean).pte u).dirty = false →
      (((MMU.init.run fullClean).readVA 6300).1.pte u).dirty = false) ∧
    ((MMU.init.run fullClean).tlBuffer.lookup (VRT_Address.ofValue 6300).vpn ≠ none →
      ((MMU.init.run fullClean).readVA 6300).1 = MMU.init.run fullClean) :=
  ⟨by decide, read_never_dirties (MMU.init.run fullClean) ⟨fullClean, rfl⟩ 6300⟩

/-! ## Success and fault lines exclude each other -/

theorem hit_counts (op : Op) (v va f : Nat) (n : Option WriteNote) :
    pageFaultCount [op.cmd, TraceRec.success v va f n] = 0 ∧
    successCount [op.cmd, TraceRec.success v va f n] = 1 := by
  cases op <;> simp [pageFaultCount, successCount, Op.cmd]

theorem fault_counts (m : MMU) (op : Op) (v va o f : Nat) (w : Bool) :
    pageFaultCount (op.cmd :: TraceRec.pageFault v va ::
      (m.evictLines ++ [TraceRec.assign v o f, TraceRec.swapIn v o f w])) = 1 ∧
    successCount (op.cmd :: TraceRec.pageFault v va ::
      (m.evictLines ++ [TraceRec.assign v o f, TraceRec.swapIn v o f w])) = 0 := by
  cases op <;> simp only [pageFaultCount, successCount, Op.cmd, MMU.evictLines] <;>
    by_cases h1 : m.frame m.physicalMemIterator = -1 <;>
    by_cases h2 : (m.pte (m.frame m.physicalMemIterator).toNat).dirty = true <;>
    simp [h1, h2]

/-- C17, fault-trace suppression: for a reachable state and any 16-bit
address, the trace of `readVA` (and of `writeVA`) has exactly one line that is
a successful-translation line or a page-fault line, never both and never
neither: the page-fault line when the addressed page was not present before
the access, the success line when it was. -/
theorem fault_trace_suppression (m : MMU) (hr : Reachable m) (op : Op) :
    pageFaultCount (m.step op).2 + successCount (m.step op).2 = 1 ∧
    (pageFaultCount (m.step op).2 = 1 ↔ (m.pte op.vpn).present = false) ∧
    (successCount (m.step op).2 = 1 ↔ (m.pte op.vpn).present = true) := by
  have hm := hr.inv
  cases hp : (m.pte op.vpn).present with
  | true =>
    rw [step_hit hm op hp]
    obtain ⟨h1, h2⟩ := hit_counts op op.vpn (VRT_Address.ofValue op.addr).value
      (m.pte op.vpn).pfn (if op.isWrite then some (WriteNote.ofDirty (m.pte op.vpn).dirty) else none)
    simp only [h1, h2]
    simp
  | false =>
    rw [step_fault hm op hp]
    obtain ⟨h1, h2⟩ := fault_counts m op op.vpn (VRT_Address.ofValue op.addr).value
      (VRT_Address.ofValue op.addr).offset m.physicalMemIterator op.isWrite
    simp only [h1, h2]
    simp

theorem fault_trace_suppression_witness :
    (pageFaultCount ((MMU.init.run fullClean).step (Op.read 16389)).2 +
        successCount ((MMU.init.run fullClean).step (Op.read 16389)).2 = 1 ∧
      (pageFaultCount ((MMU.init.run fullClean).step (Op.read 16389)).2 = 1 ↔
        ((MMU.init.run fullClean).pte (Op.read 16389).vpn).present = false) ∧
      (successCount ((MMU.init.run fullClean).step (Op.read 16389)).2 = 1 ↔
        ((MMU.init.run fullClean).pte (Op.read 16389).vpn).present = true)) ∧
    ((MMU.init.run fullClean).pte (Op.read 16389).vpn).present = false ∧
    ((MMU.init.run fullClean).pte (Op.write 5).vpn).present = true :=
  ⟨fault_trace_suppression (MMU.init.run fullClean) ⟨fullClean, rfl⟩ (Op.read 16389),
    by decide, by decide⟩

/-! ## Consequences of the invariant: mirror, dirty bits, index bounds -/

theorem pte_beyond {m : MMU} (hm : Inv m) {v : Nat} (hv : 32 ≤ v) : m.pte v = default := by
  simp only [MMU.pte, List.getD_eq_getElem?_getD]
  rw [List.getElem?_eq_none (by rw [hm.len_pt]; exact hv)]
  rfl

theorem absent_of_miss {m : MMU} (hm : Inv m) (v : Nat) (h : m.tlBuffer.lookup v = none) :
    (m.pte v).present = false := by
  by_cases hv : v < 32
  · cases hp : (m.pte v).present with
    | false => rfl
    | true =>
      rw [lookup_present hm hv hp] at h
      exact absurd h (by simp)
  · rw [pte_beyond hm (Nat.le_of_not_lt hv)]
    rfl

/-- C18, the TLB mirrors the frame pool: in every state reached from the
initial state, for every index `i < 8` the TLB row `i` is in use exactly when
`physicalMem[i]` is not `-1`, and then it holds `PFN = i` and
`VPN = physicalMem[i]`.  Hence every present page has an in-use TLB row, a
TLB miss for a page means that page is not present, and whenever `readVA` or
`writeVA` calls `translateVA` (after a miss) it takes the page-fault branch. -/
theorem tlb_mirrors_frame_pool (ops : List Op) :
    (∀ i, i < 8 →
      (((MMU.init.run ops).row i).in_use = true ↔ (MMU.init.run ops).frame i ≠ -1) ∧
      (((MMU.init.run ops).row i).in_use = true →
        ((MMU.init.run ops).row i).PFN = i ∧
        (((MMU.init.run ops).row i).VPN : Int) = (MMU.init.run ops).frame i)) ∧
    (∀ v, v < 32 → ((MMU.init.run ops).pte v).present = true →
      ∃ i, i < 8 ∧ ((MMU.init.run ops).row i).in_use = true ∧
        ((MMU.init.run ops).row i).VPN = v) ∧
    (∀ v, (MMU.init.run ops).tlBuffer.lookup v = none →
      ((MMU.init.run ops).pte v).present = false) ∧
    (∀ op : Op, (MMU.init.run ops).tlBuffer.lookup op.vpn = none →
      isFault ((MMU.init.run ops).translateVA (VRT_Address.ofValue op.addr) op.isWrite).2.2
        = true) := by
  have hm := Inv_reachable ops
  refine ⟨fun i hi => ⟨hm.tlb_use i hi, hm.tlb_row i hi⟩, ?_, absent_of_miss hm, ?_⟩
  · intro v hv hp
    obtain ⟨hlt, hfr⟩ := hm.pt_frame v hv hp
    have hne : (MMU.init.run ops).frame ((MMU.init.run ops).pte v).pfn ≠ -1 := by omega
    have huse := (hm.tlb_use _ hlt).2 hne
    refine ⟨_, hlt, huse, ?_⟩
    have h2 := (hm.tlb_row _ hlt huse).2
    rw [hfr] at h2
    exact_mod_cast h2
  · intro op hmiss
    have hp := absent_of_miss hm op.vpn hmiss
    rw [translateVA_fault hm _ _ (vpn_lt op.addr) hp]
    simp [isFault]

theorem fault_annotations (m : MMU) (op : Op) (v va o f : Nat) (w : Bool) :
    annotations (op.cmd :: TraceRec.pageFault v va ::
      (m.evictLines ++ [TraceRec.assign v o f, TraceRec.swapIn v o f w])) =
      if w = true then [WriteNote.newlyDirty] else [] := by
  cases op <;> cases w <;> simp only [annotations, Op.cmd, MMU.evictLines] <;>
    by_cases h1 : m.frame m.physicalMemIterator = -1 <;>
    by_cases h2 : (m.pte (m.frame m.physicalMemIterator).toNat).dirty = true <;>
    simp [h1, h2]

theorem hit_annotations (op : Op) (v va f : Nat) (n : Option WriteNote) :
    annotations [op.cmd, TraceRec.success v va f n] = n.toList := by
  cases op <;> cases n <;> simp [annotations, Op.cmd]

theorem clean_of_absent {m : MMU} (hm : Inv m) (v : Nat) (hp : (m.pte v).present = false) :
    (m.pte v).dirty = false := by
  by_cases hv : v < 32
  · cases hd : (m.pte v).dirty with
    | false => rfl
    | true =>
      rw [hm.dirty_present v hv hd] at hp
      exact absurd hp (by simp)
  · rw [pte_beyond hm (Nat.le_of_not_lt hv)]
    rfl

/-- C19, dirty implies present: in every state reached from the initial
state, every page table entry that is dirty is also present; hence a page
that faults in was not dirty before the access, and the `NEWLY DIRTY`
annotation printed for a faulting write is accurate (the page was clean
before the write and is dirty after it). -/
theorem dirty_implies_present (ops : List Op) :
    (∀ v, ((MMU.init.run ops).pte v).dirty = true →
      ((MMU.init.run ops).pte v).present = true) ∧
    (∀ op : Op, isFault ((MMU.init.run ops).step op).2 = true →
      ((MMU.init.run ops).pte op.vpn).dirty = false) ∧
    (∀ a : Nat, isFault ((MMU.init.run ops).writeVA a).2 = true →
      annotations ((MMU.init.run ops).writeVA a).2 = [WriteNote.newlyDirty] ∧
      ((MMU.init.run ops).pte (VRT_Address.ofValue a).vpn).dirty = false ∧
      (((MMU.init.run ops).writeVA a).1.pte (VRT_Address.ofValue a).vpn).dirty = true) := by
  have hm := Inv_reachable ops
  have key : ∀ op : Op, isFault ((MMU.init.run ops).step op).2 = true →
      ((MMU.init.run ops).pte op.vpn).present = false := by
    intro op hf
    cases hp : ((MMU.init.run ops).pte op.vpn).present with
    | false => rfl
    | true =>
      rw [step_hit hm op hp, hit_isFault] at hf
      exact absurd hf (by simp)
  refine ⟨?_, fun op hf => clean_of_absent hm _ (key op hf), ?_⟩
  · intro v hd
    cases hp : ((MMU.init.run ops).pte v).present with
    | true => rfl
    | false =>
      rw [clean_of_absent hm v hp] at hd
      exact absurd hd (by simp)
  · intro a hf
    have hp := key (Op.write a) hf
    have hstep : (MMU.init.run ops).writeVA a = (MMU.init.run ops).step (Op.write a) := rfl
    have hvpn : (VRT_Address.ofValue a).vpn = (Op.write a).vpn := rfl
    rw [hstep, hvpn, step_fault hm _ hp, fault_annotations]
    refine ⟨by simp [Op.isWrite], clean_of_absent hm _ hp, ?_⟩
    simp only
    rw [faultPost_pte_new hm _ hp]
    simp [Op.isWrite]

theorem pfn_step {m : MMU} (hm : Inv m) (h : ∀ v, (m.pte v).pfn < 8) (op : Op) :
    ∀ v, ((m.step op).1.pte v).pfn < 8 := by
  intro u
  cases hp : (m.pte op.vpn).present with
  | true =>
    rw [step_hit hm op hp]
    simp only [hitPost_pte hm]
    split
    · exact h u
    · exact h u
  | false =>
    rw [step_fault hm op hp]
    simp only
    by_cases huv : u = op.vpn
    · subst huv
      rw [faultPost_pte_new hm _ hp]
      exact hm.it_lt
    · by_cases hev : m.frame m.physicalMemIterator ≠ -1 ∧
          u = (m.frame m.physicalMemIterator).toNat
      · obtain ⟨hw, hue⟩ := hev
        rw [hue, faultPost_pte_evicted hm _ hp hw]
        exact Nat.zero_lt_succ 7
      · have hu2 : m.frame m.physicalMemIterator = -1 ∨
            u ≠ (m.frame m.physicalMemIterator).toNat := by
          by_cases hw : m.frame m.physicalMemIterator = -1
          · exact Or.inl hw
          · exact Or.inr (fun h => hev ⟨hw, h⟩)
        rw [faultPost_pte_other hm _ u huv hu2]
        exact h u

theorem pfn_run (ops : List Op) :
    ∀ m : MMU, Inv m → (∀ v, (m.pte v).pfn < 8) → ∀ v, ((m.run ops).pte v).pfn < 8 := by
  induction ops with
  | nil => intro m _ h; exact h
  | cons op ops ih =>
    intro m hm h
    exact ih _ (Inv_step hm op) (pfn_step hm h op)

theorem pfn_init : ∀ v, (MMU.init.pte v).pfn < 8 := by
  intro v
  by_cases hv : v < 32
  · revert v
    decide
  · rw [pte_beyond Inv_init (Nat.le_of_not_lt hv)]
    exact Nat.zero_lt_succ 7

/-- C20, index safety: for every sequence of `readVA`/`writeVA` calls from the
initial state, every index the code uses is in bounds: the page of any 16-bit
address is `address / 2048`, below 32 and below the page table size, so the
out-of-range branch of `translateVA` is not taken; the three vectors keep
their sizes 32, 8 and 8; the FIFO cursor and the TLB cursor are below 8;
every frame pool value is `-1` or in `[0, 32)`; and every `pfn` stored in the
page table is below 8. -/
theorem index_safety (ops : List Op) :
    (∀ a : Nat, (VRT_Address.ofValue a).vpn = a % 65536 / 2048 ∧
      (VRT_Address.ofValue a).vpn < 32 ∧
      ¬ (VRT_Address.ofValue a).vpn ≥ (MMU.init.run ops).pageTable.length) ∧
    (MMU.init.run ops).pageTable.length = 32 ∧
    (MMU.init.run ops).physicalMem.length = 8 ∧
    (MMU.init.run ops).tlBuffer.buffer.length = 8 ∧
    (MMU.init.run ops).physicalMemIterator < 8 ∧
    (MMU.init.run ops).tlBuffer.bufferIterator < 8 ∧
    (∀ i, i < 8 → (MMU.init.run ops).frame i = -1 ∨
      (0 ≤ (MMU.init.run ops).frame i ∧ (MMU.init.run ops).frame i < 32)) ∧
    (∀ v, ((MMU.init.run ops).pte v).pfn < 8) := by
  have hm := Inv_reachable ops
  refine ⟨fun a => ⟨?_, vpn_lt a, ?_⟩, hm.len_pt, hm.len_pm, hm.len_tb, hm.it_lt, hm.bi_lt,
    ?_, pfn_run ops MMU.init Inv_init pfn_init⟩
  · show a % 2 ^ 16 / 2 ^ 11 % 2 ^ 5 = a % 65536 / 2048
    omega
  · rw [hm.len_pt]
    have := vpn_lt a
    omega
  · intro i hi
    have := hm.range i hi
    omega

/-! ## The TLB on its own: lookup -/

theorem find?_lowest {α : Type} (p : α → Bool) (d : α) :
    ∀ (l : List α) (i : Nat), i < l.length → p (l.getD i d) = true →
      (∀ j, j < i → p (l.getD j d) = false) → l.find? p = some (l.getD i d)
  | [], i, hi, _, _ => by simp at hi
  | x :: xs, 0, _, hp, _ => by
    have hx : p x = true := by simpa using hp
    rw [List.find?_cons_of_pos _ hx]
    simp
  | x :: xs, i + 1, hi, hp, hmin => by
    have hx : ¬ p x = true := by
      have := hmin 0 (Nat.succ_pos i)
      simpa using this
    rw [List.find?_cons_of_neg _ hx]
    have ih := find?_lowest p d xs i (by simpa using hi) (by simpa using hp)
      (fun j hj => by simpa using hmin (j + 1) (Nat.succ_lt_succ hj))
    simpa using ih

theorem getD_mem {α : Type} (l : List α) (i : Nat) (d : α) (hi : i < l.length) :
    l.getD i d ∈ l := by
  rw [List.getD_eq_getElem _ _ hi]
  exact List.getElem_mem hi

/-- C14 (amended), TLB lookup result: for every TLB state whose `cacheError`
flag is clear and every VPN `q`, `fetchPageBuffer(q)` followed by
`getCacheError` reports a hit exactly when some row is in use with `VPN = q`;
on a hit the value returned is the `PFN` of the lowest-index such row; on a
miss the value returned is 0. -/
theorem tlb_lookup_result (t : TLB) (q : Nat) (hce : t.cacheError = false) :
    ((t.fetchPageBuffer q).1.getCacheError.2 = false ↔
      ∃ e, e ∈ t.buffer ∧ e.in_use = true ∧ e.VPN = q) ∧
    (∀ i, i < t.buffer.length → (t.row i).in_use = true → (t.row i).VPN = q →
      (∀ j, j < i → ¬ ((t.row j).in_use = true ∧ (t.row j).VPN = q)) →
      (t.fetchPageBuffer q).2 = (t.row i).PFN) ∧
    ((t.fetchPageBuffer q).1.getCacheError.2 = true → (t.fetchPageBuffer q).2 = 0) := by
  have hlow : ∀ i, i < t.buffer.length → (t.row i).in_use = true → (t.row i).VPN = q →
      (∀ j, j < i → ¬ ((t.row j).in_use = true ∧ (t.row j).VPN = q)) →
      t.buffer.find? (fun e => e.VPN == q && e.in_use) = some (t.row i) := by
    intro i hi hu hv hmin
    refine find?_lowest _ default t.buffer i hi ?_ ?_
    · have h1 : (t.buffer.getD i default).in_use = true := hu
      have h2 : (t.buffer.getD i default).VPN = q := hv
      simp only [h1, h2, beq_self_eq_true, Bool.and_self]
    · intro j hj
      have := hmin j hj
      simp only [TLB.row] at this
      cases hb : ((t.buffer.getD j default).VPN == q && (t.buffer.getD j default).in_use) with
      | false => rfl
      | true =>
        simp only [Bool.and_eq_true, beq_iff_eq] at hb
        exact absurd ⟨hb.2, hb.1⟩ this
  unfold TLB.fetchPageBuffer TLB.getCacheError
  cases h : t.buffer.find? (fun e => e.VPN == q && e.in_use) with
  | some e =>
    have hmem := List.mem_of_find?_eq_some h
    have hpe := List.find?_some h
    simp only [Bool.and_eq_true, beq_iff_eq] at hpe
    refine ⟨⟨fun _ => ⟨e, hmem, hpe.2, hpe.1⟩, fun _ => hce⟩, ?_, ?_⟩
    · intro i hi hu hv hmin
      have := hlow i hi hu hv hmin
      rw [h] at this
      cases this
      rfl
    · intro hc
      simp only [hce] at hc
      exact absurd hc (by simp)
  | none =>
    rw [List.find?_eq_none] at h
    refine ⟨⟨fun hc => absurd hc (by simp), ?_⟩, ?_, fun _ => rfl⟩
    · rintro ⟨e, hmem, hu, hv⟩
      have := h e hmem
      simp [hu, hv] at this
    · intro i hi hu hv _
      have := h (t.row i) (getD_mem _ _ _ hi)
      simp [hu, hv] at this

theorem tlb_lookup_result_witness :
    oneRowTLB.cacheError = false ∧
    (((oneRowTLB.fetchPageBuffer 3).1.getCacheError.2 = false ↔
        ∃ e, e ∈ oneRowTLB.buffer ∧ e.in_use = true ∧ e.VPN = 3) ∧
      (∀ i, i < oneRowTLB.buffer.length → (oneRowTLB.row i).in_use = true →
        (oneRowTLB.row i).VPN = 3 →
        (∀ j, j < i → ¬ ((oneRowTLB.row j).in_use = true ∧ (oneRowTLB.row j).VPN = 3)) →
        (oneRowTLB.fetchPageBuffer 3).2 = (oneRowTLB.row i).PFN) ∧
      ((oneRowTLB.fetchPageBuffer 3).1.getCacheError.2 = true →
        (oneRowTLB.fetchPageBuffer 3).2 = 0)) :=
  ⟨by decide, tlb_lookup_result oneRowTLB 3 (by decide)⟩

/-- C14 as stated fails when the flag is already raised: in `staleTLB` an
in-use row holds page 3, `fetchPageBuffer 3` returns its frame 5, and yet
`getCacheError` reports an error, that is a miss. -/
theorem tlb_lookup_stale_flag :
    (∃ e, e ∈ staleTLB.buffer ∧ e.in_use = true ∧ e.VPN = 3) ∧
    (staleTLB.fetchPageBuffer 3).2 = 5 ∧
    (staleTLB.fetchPageBuffer 3).1.getCacheError.2 = true :=
  ⟨⟨{ in_use := true, VPN := 3, PFN := 5 }, by decide, rfl, rfl⟩, by decide, by decide⟩

/-- C15 (amended), TLB lookup and the TLB state: for every TLB state and
every VPN `q`, `fetchPageBuffer(q)` leaves all rows and the write cursor
unchanged; when some in-use row holds `q` (a hit) the whole state, flag
included, is unchanged; otherwise (a miss) the only change is that
`cacheError` is set. -/
theorem tlb_lookup_frame (t : TLB) (q : Nat) :
    (t.fetchPageBuffer q).1.buffer = t.buffer ∧
    (t.fetchPageBuffer q).1.bufferIterator = t.bufferIterator ∧
    ((∃ e, e ∈ t.buffer ∧ e.in_use = true ∧ e.VPN = q) → (t.fetchPageBuffer q).1 = t) ∧
    ((¬ ∃ e, e ∈ t.buffer ∧ e.in_use = true ∧ e.VPN = q) →
      (t.fetchPageBuffer q).1 = { t with cacheError := true }) := by
  unfold TLB.fetchPageBuffer
  cases h : t.buffer.find? (fun e => e.VPN == q && e.in_use) with
  | some e =>
    have hmem := List.mem_of_find?_eq_some h
    have hpe := List.find?_some h
    simp only [Bool.and_eq_true, beq_iff_eq] at hpe
    exact ⟨rfl, rfl, fun _ => rfl, fun hn => absurd ⟨e, hmem, hpe.2, hpe.1⟩ hn⟩
  | none =>
    rw [List.find?_eq_none] at h
    refine ⟨rfl, rfl, ?_, fun _ => rfl⟩
    rintro ⟨e, hmem, hu, hv⟩
    have := h e hmem
    simp [hu, hv] at this

/-- C15 as stated fails on a miss: looking up page 0 in the freshly
constructed TLB changes the state, because `cacheError` goes from clear to set. -/
theorem tlb_lookup_sets_flag :
    (TLB.init.fetchPageBuffer 0).1 ≠ TLB.init ∧
    TLB.init.cacheError = false ∧
    (TLB.init.fetchPageBuffer 0).1.cacheError = true :=
  ⟨by decide, by decide, by decide⟩

/-! ## The TLB on its own: install -/

theorem hit_ejected (op : Op) (v va f : Nat) (n : Option WriteNote) :
    ejected [op.cmd, TraceRec.success v va f n] = [] := by
  cases op <;> simp [ejected, Op.cmd]

/-- After any access the addressed page is present, and the single frame the
trace reports is its `pfn`. -/
theorem step_resolves {m : MMU} (hm : Inv m) (op : Op) :
    ((m.step op).1.pte op.vpn).present = true ∧
    reportedFrames (m.step op).2 = [((m.step op).1.pte op.vpn).pfn] := by
  cases hp : (m.pte op.vpn).present with
  | true =>
    rw [step_hit hm op hp, hit_reportedFrames]
    simp only [hitPost_pte hm]
    split <;> simp [hp]
  | false =>
    rw [step_fault hm op hp, fault_reportedFrames]
    simp only [faultPost_pte_new hm op hp, and_self]

/-- Reads of a page that is present leave the state as it is. -/
theorem run_reads_present {m : MMU} (hm : Inv m) (v : Nat)
    (hp : (m.pte v).present = true) :
    ∀ rs : List Nat, (∀ r, r ∈ rs → (VRT_Address.ofValue r).vpn = v) →
      m.run (rs.map Op.read) = m
  | [], _ => rfl
  | r :: rs, h => by
    have hr : (Op.read r).vpn = v := h r (List.mem_cons_self _ _)
    have hstep : (m.step (Op.read r)).1 = m := by
      rw [step_hit hm _ (by rw [hr]; exact hp)]
      rfl
    simp only [List.map_cons, MMU.run, hstep]
    exact run_reads_present hm v hp rs (fun x hx => h x (List.mem_cons_of_mem _ hx))

/-- The first write to a clean page is annotated `NEWLY DIRTY`, on either path. -/
theorem write_clean_annotation {m : MMU} (hm : Inv m) (a : Nat)
    (hd : (m.pte (Op.write a).vpn).dirty = false) :
    annotations (m.step (Op.write a)).2 = [WriteNote.newlyDirty] ∧
    ((m.step (Op.write a)).1.pte (Op.write a).vpn).dirty = true := by
  cases hp : (m.pte (Op.write a).vpn).present with
  | true =>
    rw [step_hit hm _ hp, hit_annotations]
    simp only [hitPost_pte hm]
    simp [Op.isWrite, hd, WriteNote.ofDirty]
  | false =>
    rw [step_fault hm _ hp, fault_annotations]
    simp only
    rw [faultPost_pte_new hm _ hp]
    simp [Op.isWrite]

/-- C11, repeated writes: for a reachable state and a page `v` whose dirty
bit is 0, a write to an address in `v`, then any number of reads of addresses
in `v`, then a second write to an address in `v` give: the first write's
trace is annotated newly-dirty, the second write's trace is annotated
repeat-write and has no page-fault and no eviction line, both writes report
the same frame number, and `pageTable[v].dirty = 1` afterwards. -/
theorem repeated_writes (m : MMU) (hr : Reachable m) (a1 a2 : Nat) (rs : List Nat)
    (h2 : (VRT_Address.ofValue a2).vpn = (VRT_Address.ofValue a1).vpn)
    (hrs : ∀ r, r ∈ rs → (VRT_Address.ofValue r).vpn = (VRT_Address.ofValue a1).vpn)
    (hd : (m.pte (VRT_Address.ofValue a1).vpn).dirty = false) :
    annotations (m.writeVA a1).2 = [WriteNote.newlyDirty] ∧
    annotations (((m.writeVA a1).1.run (rs.map Op.read)).writeVA a2).2 =
      [WriteNote.repeatWrite] ∧
    isFault (((m.writeVA a1).1.run (rs.map Op.read)).writeVA a2).2 = false ∧
    ejected (((m.writeVA a1).1.run (rs.map Op.read)).writeVA a2).2 = [] ∧
    reportedFrames (((m.writeVA a1).1.run (rs.map Op.read)).writeVA a2).2 =
      reportedFrames (m.writeVA a1).2 ∧
    ((((m.writeVA a1).1.run (rs.map Op.read)).writeVA a2).1.pte
      (VRT_Address.ofValue a1).vpn).dirty = true := by
  have hm := hr.inv
  have hw1 : m.writeVA a1 = m.step (Op.write a1) := rfl
  have hv1 : (VRT_Address.ofValue a1).vpn = (Op.write a1).vpn := rfl
  have hm1 : Inv (m.step (Op.write a1)).1 := Inv_step hm _
  obtain ⟨hpres, hrep⟩ := step_resolves hm (Op.write a1)
  obtain ⟨hann, hdirty⟩ := write_clean_annotation hm a1 hd
  have hreads := run_reads_present hm1 (Op.write a1).vpn hpres rs hrs
  rw [hw1, hreads]
  have hw2 : (m.step (Op.write a1)).1.writeVA a2 = (m.step (Op.write a1)).1.step (Op.write a2) :=
    rfl
  have hv2 : (Op.write a2).vpn = (Op.write a1).vpn := h2
  have hpres2 : ((m.step (Op.write a1)).1.pte (Op.write a2).vpn).present = true := by
    rw [hv2]; exact hpres
  rw [hw2, step_hit hm1 _ hpres2, hit_annotations, hit_isFault, hit_ejected,
    hit_reportedFrames, hrep, hv1]
  simp only [hitPost_pte hm1, hv2, hdirty]
  refine ⟨hann, ?_, trivial, trivial, trivial, ?_⟩
  · simp [Op.isWrite, WriteNote.ofDirty]
  · simp [Op.isWrite]

theorem repeated_writes_witness :
    (VRT_Address.ofValue 6400).vpn = (VRT_Address.ofValue 6200).vpn ∧
    (MMU.init.pte (VRT_Address.ofValue 6200).vpn).dirty = false ∧
    (annotations (MMU.init.writeVA 6200).2 = [WriteNote.newlyDirty] ∧
      annotations (((MMU.init.writeVA 6200).1.run ([6300].map Op.read)).writeVA 6400).2 =
        [WriteNote.repeatWrite] ∧
      isFault (((MMU.init.writeVA 6200).1.run ([6300].map Op.read)).writeVA 6400).2 = false ∧
      ejected (((MMU.init.writeVA 6200).1.run ([6300].map Op.read)).writeVA 6400).2 = [] ∧
      reportedFrames (((MMU.init.writeVA 6200).1.run ([6300].map Op.read)).writeVA 6400).2 =
        reportedFrames (MMU.init.writeVA 6200).2 ∧
      ((((MMU.init.writeVA 6200).1.run ([6300].map Op.read)).writeVA 6400).1.pte
        (VRT_Address.ofValue 6200).vpn).dirty = true) :=
  ⟨by decide, by decide,
    repeated_writes MMU.init ⟨[], rfl⟩ 6200 6400 [6300] (by decide) (by decide) (by decide)⟩

/-! ## Reads of pairwise distinct pages -/

theorem faultPost_absent {m : MMU} (hm : Inv m) (op : Op)
    (hp : (m.pte op.vpn).present = false) (u : Nat) (hu : u ≠ op.vpn)
    (hpu : (m.pte u).present = false) : ((m.faultPost op).pte u).present = false := by
  by_cases hev : m.frame m.physicalMemIterator ≠ -1 ∧
      u = (m.frame m.physicalMemIterator).toNat
  · obtain ⟨hw, hue⟩ := hev
    rw [hue, faultPost_pte_evicted hm op hp hw]
  · have hu2 : m.frame m.physicalMemIterator = -1 ∨
        u ≠ (m.frame m.physicalMemIterator).toNat := by
      by_cases hw : m.frame m.physicalMemIterator = -1
      · exact Or.inl hw
      · exact Or.inr (fun h => hev ⟨hw, h⟩)
    rw [faultPost_pte_other hm op u hu hu2]
    exact hpu

/-- What the fault at the head of the log evicts, in terms of the log. -/
theorem fault_ejected_log {m : MMU} {L : List FaultEv} (hJ : FifoInv m L) (op : Op)
    (v va o f : Nat) (w : Bool) :
    (L.length < 8 →
      ejected (op.cmd :: TraceRec.pageFault v va ::
        (m.evictLines ++ [TraceRec.assign v o f, TraceRec.swapIn v o f w])) = []) ∧
    (8 ≤ L.length → ∃ e0, L[L.length - 8]? = some e0 ∧
      ejected (op.cmd :: TraceRec.pageFault v va ::
        (m.evictLines ++ [TraceRec.assign v o f, TraceRec.swapIn v o f w])) =
        [(e0.vpn : Int)]) := by
  rw [fault_ejected]
  constructor
  · intro h8
    have hc : m.physicalMemIterator = L.length := by rw [hJ.cursor]; omega
    have := hJ.empty L.length h8 (Nat.le_refl _)
    simp only [hc, this, ne_eq, not_true_eq_false, if_false]
  · intro h8
    have hlt8 : L.length - 8 < L.length := by omega
    obtain ⟨e0, he0⟩ : ∃ e0, L[L.length - 8]? = some e0 :=
      ⟨L[L.length - 8], List.getElem?_eq_getElem hlt8⟩
    have hfr := hJ.recent _ e0 he0 (by omega)
    have hidx : (L.length - 8) % 8 = m.physicalMemIterator := by rw [hJ.cursor]; omega
    rw [hidx] at hfr
    have hne : m.frame m.physicalMemIterator ≠ -1 := by omega
    refine ⟨e0, he0, ?_⟩
    simp only [ne_eq, hne, not_false_eq_true, if_true]
    rw [hfr]

theorem distinct_reads (as : List Nat) :
    ∀ (m : MMU) (L : List FaultEv), Inv m → FifoInv m L →
      (as.map (fun a => (VRT_Address.ofValue a).vpn)).Nodup →
      (∀ a, a ∈ as → (m.pte (VRT_Address.ofValue a).vpn).present = false) →
      ∀ k tr, (m.traces (as.map Op.read))[k]? = some tr →
        isFault tr = true ∧
        (L.length + k < 8 → ejected tr = []) ∧
        (8 ≤ L.length + k → ∃ p,
          (L.map (fun e => e.vpn) ++ as.map (fun a => (VRT_Address.ofValue a).vpn))[
            L.length + k - 8]? = some p ∧ ejected tr = [(p : Int)]) := by
  induction as with
  | nil =>
    intro m L _ _ _ _ k tr hk
    simp [MMU.traces] at hk
  | cons a as ih =>
    intro m L hm hJ hnd habs k tr hk
    have hp : (m.pte (Op.read a).vpn).present = false := habs a (List.mem_cons_self _ _)
    have hs := step_fault hm (Op.read a) hp
    simp only [List.map_cons, MMU.traces, hs] at hk
    cases k with
    | zero =>
      simp only [List.getElem?_cons_zero, Option.some.injEq] at hk
      subst hk
      obtain ⟨hlo, hhi⟩ := fault_ejected_log hJ (Op.read a) (Op.read a).vpn
        (VRT_Address.ofValue (Op.read a).addr).value
        (VRT_Address.ofValue (Op.read a).addr).offset m.physicalMemIterator (Op.read a).isWrite
      refine ⟨fault_isFault _ _ _ _ _ _ _, fun h => hlo (by omega), fun h => ?_⟩
      obtain ⟨e0, he0, hej⟩ := hhi (by omega)
      refine ⟨e0.vpn, ?_, hej⟩
      rw [Nat.add_zero, List.getElem?_append_left (by rw [List.length_map]; omega),
        List.getElem?_map, he0]
      rfl
    | succ k =>
      simp only [List.getElem?_cons_succ] at hk
      rw [List.map_cons, List.nodup_cons] at hnd
      have habs2 : ∀ b, b ∈ as →
          ((m.faultPost (Op.read a)).pte (VRT_Address.ofValue b).vpn).present = false := by
        intro b hb
        refine faultPost_absent hm _ hp _ ?_ (habs b (List.mem_cons_of_mem _ hb))
        intro heq
        apply hnd.1
        rw [List.mem_map]
        exact ⟨b, hb, heq⟩
      have h := ih (m.faultPost (Op.read a))
        (L ++ [{ vpn := (Op.read a).vpn, frame := m.physicalMemIterator, evicted := none }])
        (Inv_faultPost hm _ hp) (FifoInv_fault hm hJ _ _) hnd.2 habs2 k tr hk
      have hlen : (L ++ [(⟨(Op.read a).vpn, m.physicalMemIterator, none⟩ : FaultEv)]).length + k =
          L.length + (k + 1) := by
        rw [List.length_append, List.length_singleton]
        omega
      have hpages : (L ++ [(⟨(Op.read a).vpn, m.physicalMemIterator, none⟩ : FaultEv)]).map
            (fun e => e.vpn) ++ as.map (fun a => (VRT_Address.ofValue a).vpn) =
          L.map (fun e => e.vpn) ++
            (a :: as).map (fun a => (VRT_Address.ofValue a).vpn) := by
        simp [Op.vpn, Op.addr]
      rw [hlen, hpages] at h
      exact h

theorem init_absent (v : Nat) : (MMU.init.pte v).present = false := by
  by_cases hv : v < 32
  · revert v
    decide
  · rw [pte_beyond Inv_init (Nat.le_of_not_lt hv)]
    rfl

theorem traces_length (ops : List Op) : ∀ m : MMU, (m.traces ops).length = ops.length := by
  induction ops with
  | nil => intro m; rfl
  | cons op ops ih => intro m; simp [MMU.traces, ih]

/-- C12 (amended), nine-page scenario: from the initial state, reading one
address in each of 9 pairwise distinct pages in sequence gives 9 traces, every
one of them with a page fault (each page is absent when first touched); the
first 8 reads evict nothing, and the 9th read evicts exactly the page
installed by the 1st read. -/
theorem nine_page_scenario (as : List Nat) (hlen : as.length = 9)
    (hd : (as.map (fun a => (VRT_Address.ofValue a).vpn)).Nodup) :
    (MMU.init.traces (as.map Op.read)).length = 9 ∧
    ∀ k tr, (MMU.init.traces (as.map Op.read))[k]? = some tr →
      isFault tr = true ∧
      (k < 8 → ejected tr = []) ∧
      (k = 8 → ejected tr = [((VRT_Address.ofValue (as.getD 0 0)).vpn : Int)]) := by
  refine ⟨by rw [traces_length, List.length_map, hlen], fun k tr hk => ?_⟩
  obtain ⟨h1, h2, h3⟩ := distinct_reads as MMU.init [] Inv_init FifoInv_init hd
    (fun a _ => init_absent _) k tr hk
  refine ⟨h1, fun h => h2 (by simpa using h), fun h => ?_⟩
  subst h
  obtain ⟨p, hp, hej⟩ := h3 (by simp)
  rw [hej]
  cases as with
  | nil => simp at hlen
  | cons a0 rest =>
    simp at hp
    simp [hp]

theorem nine_page_scenario_witness :
    ninePages.length = 9 ∧
    (ninePages.map (fun a => (VRT_Address.ofValue a).vpn)).Nodup ∧
    ((MMU.init.traces (ninePages.map Op.read)).length = 9 ∧
      ∀ k tr, (MMU.init.traces (ninePages.map Op.read))[k]? = some tr →
        isFault tr = true ∧
        (k < 8 → ejected tr = []) ∧
        (k = 8 → ejected tr = [((VRT_Address.ofValue (ninePages.getD 0 0)).vpn : Int)])) :=
  ⟨by decide, by decide, nine_page_scenario ninePages (by decide) (by decide)⟩

/-- C12 as stated fails: reading the nine distinct pages of `ninePages` from
the initial state, every read has a page-fault line in its trace, the first
eight included. -/
theorem nine_pages_all_fault :
    (ninePages.map (fun a => (VRT_Address.ofValue a).vpn)).Nodup ∧
    (MMU.init.traces (ninePages.map Op.read)).map isFault =
      [true, true, true, true, true, true, true, true, true] :=
  ⟨by decide, by decide⟩

end MMUSim
